import Mathlib

/-!
Verification of the field-populator core against its specification.

The development shallowly embeds the repository's JavaScript sources:

* `src/lib/mergeText.js` — the insert-only plain-text merge
  (`mergeSourceAdditionsIntoTarget`);
* `src/lib/rateLimiter.js` — the throttle / retry gateway
  (`createRateLimiter`, `callCMA`);
* `src/lib/mergeRichText.js` — the insert-only structured-document merge
  (`mergeRichTextDocuments` and its span machinery);
* `src/lib/adoptTree.js` — the recursive adoption traversal
  (`adoptEntryTree`).

JavaScript strings become `String`/`List Char`, objects become structures or
association lists with JS spread-update semantics, `JSON.stringify` equality
becomes structural equality, and the asynchronous effects (remote fetches,
sleeps) become explicit state passing (a store lookup, a recorded wait list).
-/

namespace MergeText

/-! ## Plain-text merge engine (`src/lib/mergeText.js`)

The merge calls the external `diff-match-patch` library, which is a
dependency, not part of the repository. Modelled from the spec:
`dmp.diff_main(target, source)` is "a longest-common-subsequence-style diff"
from target (old) to source (new); we realise it as a character-level
LCS diff producing the same `[op, text]` pairs the library produces
(`op = 0` equal, `1` insert, `-1` delete), with the defining diff property
that the equal/delete texts concatenate to the old side and the equal/insert
texts concatenate to the new side. `dmp.diff_cleanupSemantic` is described by
the spec only as a regrouping "to avoid fragmenting matches on insignificant
boundaries"; it is modelled as the identity regrouping. -/

/-- Fuel-driven LCS length on character lists (helper for the modelled diff).
The fuel is always instantiated with `as.length + bs.length`, which suffices. -/
def lcsLenGo : Nat → List Char → List Char → Nat
  | _, [], _ => 0
  | _, _ :: _, [] => 0
  | 0, _ :: _, _ :: _ => 0
  | fuel + 1, a :: as, b :: bs =>
    if a = b then lcsLenGo fuel as bs + 1
    else max (lcsLenGo fuel as (b :: bs)) (lcsLenGo fuel (a :: as) bs)

/-- Length of a longest common subsequence of two character lists. -/
def lcsLen (as bs : List Char) : Nat :=
  lcsLenGo (as.length + bs.length) as bs

/-- Fuel-driven LCS diff (helper for the modelled `diff_main`): ops are
`0` (equal), `1` (insert: present only in the new side), `-1` (delete:
present only in the old side). Fuel `as.length + bs.length` suffices. -/
def diffGo : Nat → List Char → List Char → List (Int × List Char)
  | _, [], [] => []
  | _, [], b :: bs => [(1, b :: bs)]
  | _, a :: as, [] => [(-1, a :: as)]
  | 0, _ :: _, _ :: _ => []
  | fuel + 1, a :: as, b :: bs =>
    if a = b then (0, [a]) :: diffGo fuel as bs
    else if lcsLen (a :: as) bs ≤ lcsLen as (b :: bs) then
      (-1, [a]) :: diffGo fuel as (b :: bs)
    else
      (1, [b]) :: diffGo fuel (a :: as) bs

/-- Modelled from the spec: `dmp.diff_main(old, new)`, the
longest-common-subsequence-style character diff of the external
diff-match-patch dependency. -/
def diff_main (old new : List Char) : List (Int × List Char) :=
  diffGo (old.length + new.length) old new

/-- Modelled from the spec: `dmp.diff_cleanupSemantic`, described only as a
regrouping of the diff "to avoid fragmenting matches on insignificant
boundaries"; modelled as the identity regrouping. -/
def diff_cleanupSemantic (diffs : List (Int × List Char)) : List (Int × List Char) :=
  diffs

/-- The reconstruction loop of `mergeSourceAdditionsIntoTarget`
(mergeText.js lines 24–39): equal, insert and delete spans are all copied
to the output (`out += text` in each of the three branches). -/
def mergeLoop : List (Int × List Char) → List Char
  | [] => []
  | (op, text) :: rest =>
    (if op = 0 then text
     else if op = 1 then text
     else if op = -1 then text
     else []) ++ mergeLoop rest

/-- `mergeSourceAdditionsIntoTarget(source, target)` (mergeText.js lines
20–42): diff from target to source, semantic cleanup, then the
reconstruction loop. -/
def mergeSourceAdditionsIntoTarget (source target : String) : String :=
  String.mk (mergeLoop (diff_cleanupSemantic (diff_main target.data source.data)))

/-- Concatenation of the equal and delete spans of a diff (the spans drawn
from the old side). -/
def keepEqDel : List (Int × List Char) → List Char
  | [] => []
  | (op, text) :: rest =>
    (if op = 0 ∨ op = -1 then text else []) ++ keepEqDel rest

/-- Concatenation of the equal and insert spans of a diff (the spans drawn
from the new side). -/
def keepEqIns : List (Int × List Char) → List Char
  | [] => []
  | (op, text) :: rest =>
    (if op = 0 ∨ op = 1 then text else []) ++ keepEqIns rest

lemma lcsLenGo_le_right (fuel : Nat) (as bs : List Char) :
    lcsLenGo fuel as bs ≤ bs.length := by
  induction fuel generalizing as bs with
  | zero =>
    cases as with
    | nil => simp [lcsLenGo]
    | cons a as => cases bs <;> simp [lcsLenGo]
  | succ fuel ih =>
    cases as with
    | nil => simp [lcsLenGo]
    | cons a as =>
      cases bs with
      | nil => simp [lcsLenGo]
      | cons b bs =>
        by_cases hab : a = b
        · simpa [lcsLenGo, hab, List.length_cons] using
            Nat.succ_le_succ (ih as bs)
        · have h1 := ih as (b :: bs)
          have h2 := ih (a :: as) bs
          have h2' : lcsLenGo fuel (a :: as) bs ≤ (b :: bs).length :=
            le_trans h2 (by simp)
          simp only [lcsLenGo, if_neg hab]
          exact max_le h1 h2'

lemma lcsLen_le_right (as bs : List Char) : lcsLen as bs ≤ bs.length :=
  lcsLenGo_le_right _ as bs

lemma lcsLenGo_sublist (fuel : Nat) (as bs : List Char)
    (hfuel : as.length + bs.length ≤ fuel) (hsub : bs.Sublist as) :
    lcsLenGo fuel as bs = bs.length := by
  induction fuel generalizing as bs with
  | zero =>
    have : as = [] := by
      cases as with
      | nil => rfl
      | cons a as => simp at hfuel
    subst this
    have : bs = [] := List.sublist_nil.mp hsub
    subst this
    simp [lcsLenGo]
  | succ fuel ih =>
    cases as with
    | nil =>
      have : bs = [] := List.sublist_nil.mp hsub
      subst this
      simp [lcsLenGo]
    | cons a as =>
      cases bs with
      | nil => simp [lcsLenGo]
      | cons b bs =>
        by_cases hab : a = b
        · have htail : bs.Sublist as := by
            cases hsub with
            | cons _ h => exact (List.sublist_cons_self b bs).trans h
            | cons₂ _ h => exact h
          have hf : as.length + bs.length ≤ fuel := by
            simp only [List.length_cons] at hfuel
            omega
          simp [lcsLenGo, hab, ih as bs hf htail]
        · have hcons : (b :: bs).Sublist as := by
            cases hsub with
            | cons _ h => exact h
            | cons₂ _ h => exact absurd rfl hab
          have hf : as.length + (b :: bs).length ≤ fuel := by
            simp only [List.length_cons] at hfuel ⊢
            omega
          have h1 : lcsLenGo fuel as (b :: bs) = (b :: bs).length :=
            ih as (b :: bs) hf hcons
          have h2 : lcsLenGo fuel (a :: as) bs ≤ (b :: bs).length :=
            le_trans (lcsLenGo_le_right fuel (a :: as) bs) (by simp)
          simp only [lcsLenGo, if_neg hab, h1]
          exact Nat.max_eq_left (h1 ▸ h2)

lemma lcsLen_sublist (as bs : List Char) (hsub : bs.Sublist as) :
    lcsLen as bs = bs.length :=
  lcsLenGo_sublist _ as bs le_rfl hsub

lemma keepEqDel_diffGo (fuel : Nat) (as bs : List Char)
    (hfuel : as.length + bs.length ≤ fuel) :
    keepEqDel (diffGo fuel as bs) = as := by
  induction fuel generalizing as bs with
  | zero =>
    cases as with
    | nil =>
      cases bs with
      | nil => simp [diffGo, keepEqDel]
      | cons b bs => simp at hfuel
    | cons a as => simp at hfuel
  | succ fuel ih =>
    cases as with
    | nil =>
      cases bs with
      | nil => simp [diffGo, keepEqDel]
      | cons b bs =>
        simp [diffGo, keepEqDel]
    | cons a as =>
      cases bs with
      | nil =>
        simp [diffGo, keepEqDel]
      | cons b bs =>
        simp only [List.length_cons] at hfuel
        by_cases hab : a = b
        · have hf : as.length + bs.length ≤ fuel := by omega
          simp [diffGo, hab, keepEqDel, ih as bs hf]
        · by_cases hle : lcsLen (a :: as) bs ≤ lcsLen as (b :: bs)
          · have hf : as.length + (b :: bs).length ≤ fuel := by
              simp only [List.length_cons]; omega
            simp [diffGo, hab, hle, keepEqDel, ih as (b :: bs) hf]
          · have hf : (a :: as).length + bs.length ≤ fuel := by
              simp only [List.length_cons]; omega
            simp [diffGo, hab, hle, keepEqDel, ih (a :: as) bs hf]

lemma keepEqIns_diffGo (fuel : Nat) (as bs : List Char)
    (hfuel : as.length + bs.length ≤ fuel) :
    keepEqIns (diffGo fuel as bs) = bs := by
  induction fuel generalizing as bs with
  | zero =>
    cases as with
    | nil =>
      cases bs with
      | nil => simp [diffGo, keepEqIns]
      | cons b bs => simp at hfuel
    | cons a as => simp at hfuel
  | succ fuel ih =>
    cases as with
    | nil =>
      cases bs with
      | nil => simp [diffGo, keepEqIns]
      | cons b bs =>
        simp [diffGo, keepEqIns]
    | cons a as =>
      cases bs with
      | nil =>
        simp [diffGo, keepEqIns]
      | cons b bs =>
        simp only [List.length_cons] at hfuel
        by_cases hab : a = b
        · have hf : as.length + bs.length ≤ fuel := by omega
          simp [diffGo, hab, keepEqIns, ih as bs hf]
        · by_cases hle : lcsLen (a :: as) bs ≤ lcsLen as (b :: bs)
          · have hf : as.length + (b :: bs).length ≤ fuel := by
              simp only [List.length_cons]; omega
            simp [diffGo, hab, hle, keepEqIns, ih as (b :: bs) hf]
          · have hf : (a :: as).length + bs.length ≤ fuel := by
              simp only [List.length_cons]; omega
            simp [diffGo, hab, hle, keepEqIns, ih (a :: as) bs hf]

lemma keepEqDel_sublist_mergeLoop (ds : List (Int × List Char)) :
    (keepEqDel ds).Sublist (mergeLoop ds) := by
  induction ds with
  | nil => simp [keepEqDel, mergeLoop]
  | cons d rest ih =>
    obtain ⟨op, text⟩ := d
    by_cases h0 : op = 0
    · simpa [keepEqDel, mergeLoop, h0] using ih.append_left text
    · by_cases h1 : op = 1
      · have : ¬(op = 0 ∨ op = -1) := by
          rintro (h | h) <;> simp_all
        simp only [keepEqDel, mergeLoop, if_neg this, if_neg h0, if_pos h1,
          List.nil_append]
        exact ih.trans (List.sublist_append_right text _)
      · by_cases hm : op = -1
        · simpa [keepEqDel, mergeLoop, h0, h1, hm] using ih.append_left text
        · have : ¬(op = 0 ∨ op = -1) := by
            rintro (h | h) <;> simp_all
          simpa [keepEqDel, mergeLoop, if_neg this, h0, h1, hm] using ih

lemma keepEqIns_sublist_mergeLoop (ds : List (Int × List Char)) :
    (keepEqIns ds).Sublist (mergeLoop ds) := by
  induction ds with
  | nil => simp [keepEqIns, mergeLoop]
  | cons d rest ih =>
    obtain ⟨op, text⟩ := d
    by_cases h0 : op = 0
    · simpa [keepEqIns, mergeLoop, h0] using ih.append_left text
    · by_cases h1 : op = 1
      · simpa [keepEqIns, mergeLoop, h0, h1] using ih.append_left text
      · by_cases hm : op = -1
        · have : ¬(op = 0 ∨ op = 1) := by
            rintro (h | h) <;> simp_all
          simp only [keepEqIns, mergeLoop, if_neg this, if_neg h0, if_neg h1,
            if_pos hm, List.nil_append]
          exact ih.trans (List.sublist_append_right text _)
        · have : ¬(op = 0 ∨ op = 1) := by
            rintro (h | h) <;> simp_all
          simpa [keepEqIns, mergeLoop, if_neg this, h0, h1, hm] using ih

/-- When the new side is a subsequence of the old side, the modelled LCS diff
contains no insert operation. -/
lemma diffGo_no_insert (fuel : Nat) (as bs : List Char)
    (hfuel : as.length + bs.length ≤ fuel) (hsub : bs.Sublist as) :
    ∀ d ∈ diffGo fuel as bs, d.1 ≠ 1 := by
  induction fuel generalizing as bs with
  | zero =>
    cases as with
    | nil =>
      cases bs with
      | nil => simp [diffGo]
      | cons b bs => simp at hfuel
    | cons a as => simp at hfuel
  | succ fuel ih =>
    cases as with
    | nil =>
      have : bs = [] := List.sublist_nil.mp hsub
      subst this
      simp [diffGo]
    | cons a as =>
      cases bs with
      | nil =>
        simp [diffGo]
      | cons b bs =>
        simp only [List.length_cons] at hfuel
        by_cases hab : a = b
        · have htail : bs.Sublist as := by
            cases hsub with
            | cons _ h => exact (List.sublist_cons_self b bs).trans h
            | cons₂ _ h => exact h
          have hf : as.length + bs.length ≤ fuel := by omega
          intro d hd
          simp only [diffGo, if_pos hab, List.mem_cons] at hd
          rcases hd with h | h
          · subst h; simp
          · exact ih as bs hf htail d h
        · have hcons : (b :: bs).Sublist as := by
            cases hsub with
            | cons _ h => exact h
            | cons₂ _ h => exact absurd rfl hab
          have hle : lcsLen (a :: as) bs ≤ lcsLen as (b :: bs) := by
            have h1 : lcsLen as (b :: bs) = (b :: bs).length :=
              lcsLen_sublist as (b :: bs) hcons
            have h2 : lcsLen (a :: as) bs ≤ bs.length := lcsLen_le_right _ _
            rw [h1]
            exact le_trans h2 (by simp)
          have hf : as.length + (b :: bs).length ≤ fuel := by
            simp only [List.length_cons]; omega
          intro d hd
          simp only [diffGo, if_neg hab, if_pos hle, List.mem_cons] at hd
          rcases hd with h | h
          · subst h; simp
          · exact ih as (b :: bs) hf hcons d h

/-- A diff without insert operations reconstructs, through the merge loop,
exactly its equal/delete concatenation. -/
lemma mergeLoop_eq_keepEqDel (ds : List (Int × List Char))
    (hno : ∀ d ∈ ds, d.1 ≠ 1) :
    mergeLoop ds = keepEqDel ds := by
  induction ds with
  | nil => simp [keepEqDel, mergeLoop]
  | cons d rest ih =>
    obtain ⟨op, text⟩ := d
    have hop : op ≠ 1 := hno (op, text) (by simp)
    have hrest : ∀ d ∈ rest, d.1 ≠ 1 := fun d hd => hno d (by simp [hd])
    by_cases h0 : op = 0
    · simp [mergeLoop, keepEqDel, h0, ih hrest]
    · by_cases hm : op = -1
      · simp [mergeLoop, keepEqDel, h0, hm, hop, ih hrest]
      · have : ¬(op = 0 ∨ op = -1) := by
          rintro (h | h) <;> simp_all
        simp [mergeLoop, keepEqDel, h0, hm, hop, if_neg this, ih hrest]

/-- C1: for every pair of strings (source, target), every character of
target appears in the output of `mergeSourceAdditionsIntoTarget(source,
target)` in original order — no character of target is ever deleted: the
equal and delete diff spans are both copied from target verbatim (their
concatenation is exactly target), and target is a subsequence of the merged
output, insert spans only adding source material. -/
theorem mergeText_target_never_deleted (source target : String) :
    keepEqDel (diff_cleanupSemantic (diff_main target.data source.data)) = target.data ∧
    target.data.Sublist (mergeSourceAdditionsIntoTarget source target).data := by
  have h1 : keepEqDel (diff_main target.data source.data) = target.data :=
    keepEqDel_diffGo _ _ _ le_rfl
  refine ⟨h1, ?_⟩
  have h2 := keepEqDel_sublist_mergeLoop (diff_main target.data source.data)
  rw [h1] at h2
  exact h2

/-- C9: for every pair of strings (source, target), the output of
`mergeSourceAdditionsIntoTarget(source, target)` also contains every
character of source in original order: the concatenation of the equal and
insert diff spans equals source exactly, so the merged string is a common
supersequence of both source and target. -/
theorem mergeText_common_supersequence (source target : String) :
    keepEqIns (diff_cleanupSemantic (diff_main target.data source.data)) = source.data ∧
    source.data.Sublist (mergeSourceAdditionsIntoTarget source target).data ∧
    target.data.Sublist (mergeSourceAdditionsIntoTarget source target).data := by
  have h1 : keepEqIns (diff_main target.data source.data) = source.data :=
    keepEqIns_diffGo _ _ _ le_rfl
  refine ⟨h1, ?_, ?_⟩
  · have h2 := keepEqIns_sublist_mergeLoop (diff_main target.data source.data)
    rw [h1] at h2
    exact h2
  · have h3 : keepEqDel (diff_main target.data source.data) = target.data :=
      keepEqDel_diffGo _ _ _ le_rfl
    have h4 := keepEqDel_sublist_mergeLoop (diff_main target.data source.data)
    rw [h3] at h4
    exact h4

/-- C2: the plain-text merge is idempotent in its second argument: for every
pair of strings (source, target),
`mergeSourceAdditionsIntoTarget(source, mergeSourceAdditionsIntoTarget(source,
target))` equals `mergeSourceAdditionsIntoTarget(source, target)`. -/
theorem mergeText_idempotent (source target : String) :
    mergeSourceAdditionsIntoTarget source (mergeSourceAdditionsIntoTarget source target) =
      mergeSourceAdditionsIntoTarget source target := by
  unfold mergeSourceAdditionsIntoTarget diff_cleanupSemantic
  have hdata : (String.mk (mergeLoop (diff_main target.data source.data))).data =
      mergeLoop (diff_main target.data source.data) := rfl
  rw [hdata]
  have hsub : source.data.Sublist (mergeLoop (diff_main target.data source.data)) := by
    have h1 : keepEqIns (diff_main target.data source.data) = source.data :=
      keepEqIns_diffGo _ _ _ le_rfl
    have h2 := keepEqIns_sublist_mergeLoop (diff_main target.data source.data)
    rw [h1] at h2
    exact h2
  have hno : ∀ d ∈ diff_main (mergeLoop (diff_main target.data source.data)) source.data,
      d.1 ≠ 1 :=
    diffGo_no_insert _ _ _ le_rfl hsub
  have hfix : mergeLoop (diff_main (mergeLoop (diff_main target.data source.data))
      source.data) = mergeLoop (diff_main target.data source.data) := by
    rw [mergeLoop_eq_keepEqDel _ hno]
    exact keepEqDel_diffGo _ _ _ le_rfl
  rw [hfix]

end MergeText

namespace RateLimiter

/-! ## Call gateway (`src/lib/rateLimiter.js`)

`createRateLimiter` keeps a sliding log `calls` of recent timestamps;
`throttle()` drops timestamps older than the 1-second window, then either
lets the call proceed (recording `Date.now()`) or sleeps a computed wait and
re-checks. `callCMA` wraps an operation with retry-on-429 and exponential
backoff. Timestamps are integers (milliseconds), randomness (jitter) is an
explicit parameter, and the asynchronous sleeps are recorded rather than
performed: `callCMA` returns the list of backoff waits it would sleep. -/

/-- The rolling window length in milliseconds (rateLimiter.js line 10). -/
def windowMs : Int := 1000

/-- `minInterval = Math.ceil(windowMs / maxPerSecond)` (rateLimiter.js
line 11). -/
def minInterval (maxPerSecond : Nat) : Nat :=
  (1000 + maxPerSecond - 1) / maxPerSecond

/-- The `while` loop of `throttle()` (rateLimiter.js lines 16–18): shift
timestamps off the front of the log while they are strictly older than the
window. -/
def retainedCalls (calls : List Int) (now : Int) : List Int :=
  match calls with
  | [] => []
  | t :: rest => if now - t > windowMs then retainedCalls rest now else t :: rest

/-- The throttle decision of `throttle()` (rateLimiter.js lines 20–28) as a
pure function of the retained log: `some wait` when the window is full (the
caller sleeps `wait` and re-checks), `none` when the call may proceed.
`jitter` stands for the sampled `Math.floor(Math.random() * jitterMs)`.
(`headD 0` renders `calls[0]`; the retained log is non-empty whenever the
full-window branch is taken with `maxPerSecond > 0`.) -/
def throttleWait (maxPerSecond : Nat) (calls : List Int) (now : Int) (jitter : Int) :
    Option Int :=
  let retained := retainedCalls calls now
  if maxPerSecond ≤ retained.length then
    some (max ((minInterval maxPerSecond : Int) - (now - retained.headD 0)) 0 + jitter)
  else
    none

/-- A CMA failure, carrying the two fields `callCMA` inspects:
`e?.status` and `e?.sys?.id`. -/
structure CMAError where
  status : Option Nat
  sysId : Option String
  deriving DecidableEq

/-- `isRate` (rateLimiter.js line 43): a failure is a rate-limit signal when
its status is 429 or its sys id is "RateLimitExceeded". -/
def isRateLimit (e : CMAError) : Bool :=
  e.status == some 429 || e.sysId == some "RateLimitExceeded"

/-- The retry loop of `callCMA` (rateLimiter.js lines 36–53). `fn attempt`
is the outcome of the operation's `attempt`-th invocation, `jitter attempt`
the backoff jitter sampled at that attempt. The first `Nat` argument is
fuel for the `for(;;)` loop; `retries + 1 - attempt` levels always suffice,
because the loop re-enters only while `attempt < retries`. Returns the
outcome together with the list of backoff waits slept. -/
def callCMAGo (fn : Nat → Except CMAError α) (retries baseDelay : Nat)
    (jitter : Nat → Nat) : Nat → Nat → Except CMAError α × List Nat
  | 0, attempt => (fn attempt, [])
  | fuel + 1, attempt =>
    match fn attempt with
    | .ok a => (.ok a, [])
    | .error e =>
      if isRateLimit e = false ∨ retries ≤ attempt then (.error e, [])
      else
        let wait := baseDelay * 2 ^ attempt + jitter attempt
        let r := callCMAGo fn retries baseDelay jitter fuel (attempt + 1)
        (r.1, wait :: r.2)

/-- `callCMA(fn, { retries, baseDelay })` (rateLimiter.js lines 36–53),
starting at attempt 0 with sufficient fuel for the bounded loop. -/
def callCMA (fn : Nat → Except CMAError α) (retries baseDelay : Nat)
    (jitter : Nat → Nat) : Except CMAError α × List Nat :=
  callCMAGo fn retries baseDelay jitter (retries + 1) 0

lemma callCMAGo_success (fn : Nat → Except CMAError α) (retries baseDelay : Nat)
    (jitter : Nat → Nat) (a : α) (k : Nat) :
    ∀ attempt fuel, k + 1 ≤ fuel → attempt + k ≤ retries →
    (∀ i, i < k → ∃ e, fn (attempt + i) = .error e ∧ isRateLimit e = true) →
    fn (attempt + k) = .ok a →
    callCMAGo fn retries baseDelay jitter fuel attempt =
      (.ok a, (List.range k).map fun i =>
        baseDelay * 2 ^ (attempt + i) + jitter (attempt + i)) := by
  induction k with
  | zero =>
    intro attempt fuel hfuel _ _ hok
    obtain ⟨f, rfl⟩ : ∃ f, fuel = f + 1 := ⟨fuel - 1, by omega⟩
    simp only [Nat.add_zero] at hok
    simp [callCMAGo, hok]
  | succ k ih =>
    intro attempt fuel hfuel hretr hfail hok
    obtain ⟨f, rfl⟩ : ∃ f, fuel = f + 1 := ⟨fuel - 1, by omega⟩
    obtain ⟨e, he, hrate⟩ := hfail 0 (Nat.succ_pos k)
    rw [Nat.add_zero] at he
    have hcond : ¬(isRateLimit e = false ∨ retries ≤ attempt) := by
      rintro (h | h)
      · rw [hrate] at h; exact Bool.noConfusion h
      · omega
    have hrec := ih (attempt + 1) f (by omega) (by omega)
      (fun i hi => by
        have := hfail (i + 1) (by omega)
        simpa [Nat.add_assoc, Nat.add_comm 1 i] using this)
      (by rw [show attempt + 1 + k = attempt + (k + 1) by omega]; exact hok)
    have hsw : ∀ i : Nat, attempt + 1 + i = attempt + (i + 1) := fun i => by omega
    have hlist : (List.range (k + 1)).map
        (fun i => baseDelay * 2 ^ (attempt + i) + jitter (attempt + i)) =
        (baseDelay * 2 ^ attempt + jitter attempt) ::
          (List.range k).map
            (fun i => baseDelay * 2 ^ (attempt + 1 + i) + jitter (attempt + 1 + i)) := by
      rw [List.range_succ_eq_map, List.map_cons, List.map_map]
      simp [Function.comp_def, hsw]
    simp only [callCMAGo, he, if_neg hcond, hrec, hlist]

lemma callCMAGo_exhaust (fn : Nat → Except CMAError α) (retries baseDelay : Nat)
    (jitter : Nat → Nat) (efin : CMAError) (k : Nat) :
    ∀ attempt fuel, k + 1 ≤ fuel → attempt + k = retries →
    (∀ i, i < k → ∃ e, fn (attempt + i) = .error e ∧ isRateLimit e = true) →
    fn (attempt + k) = .error efin → isRateLimit efin = true →
    callCMAGo fn retries baseDelay jitter fuel attempt =
      (.error efin, (List.range k).map fun i =>
        baseDelay * 2 ^ (attempt + i) + jitter (attempt + i)) := by
  induction k with
  | zero =>
    intro attempt fuel hfuel hretr _ herr _
    obtain ⟨f, rfl⟩ : ∃ f, fuel = f + 1 := ⟨fuel - 1, by omega⟩
    rw [Nat.add_zero] at herr
    have hcond : isRateLimit efin = false ∨ retries ≤ attempt := Or.inr (by omega)
    simp [callCMAGo, herr, hcond]
  | succ k ih =>
    intro attempt fuel hfuel hretr hfail herr hrate_fin
    obtain ⟨f, rfl⟩ : ∃ f, fuel = f + 1 := ⟨fuel - 1, by omega⟩
    obtain ⟨e, he, hrate⟩ := hfail 0 (Nat.succ_pos k)
    rw [Nat.add_zero] at he
    have hcond : ¬(isRateLimit e = false ∨ retries ≤ attempt) := by
      rintro (h | h)
      · rw [hrate] at h; exact Bool.noConfusion h
      · omega
    have hrec := ih (attempt + 1) f (by omega) (by omega)
      (fun i hi => by
        have := hfail (i + 1) (by omega)
        simpa [Nat.add_assoc, Nat.add_comm 1 i] using this)
      (by rw [show attempt + 1 + k = attempt + (k + 1) by omega]; exact herr)
      hrate_fin
    have hsw : ∀ i : Nat, attempt + 1 + i = attempt + (i + 1) := fun i => by omega
    have hlist : (List.range (k + 1)).map
        (fun i => baseDelay * 2 ^ (attempt + i) + jitter (attempt + i)) =
        (baseDelay * 2 ^ attempt + jitter attempt) ::
          (List.range k).map
            (fun i => baseDelay * 2 ^ (attempt + 1 + i) + jitter (attempt + 1 + i)) := by
      rw [List.range_succ_eq_map, List.map_cons, List.map_map]
      simp [Function.comp_def, hsw]
    simp only [callCMAGo, he, if_neg hcond, hrec, hlist]

/-- C7: `callCMA(fn)` retries only on a rate-limit failure (status 429 or
sys.id "RateLimitExceeded"): (1) a non-rate-limit failure at any attempt
propagates immediately, with no backoff sleep; (2) if the first `k ≤ retries`
invocations fail with rate-limit signals and invocation `k` succeeds, the
result is that success after backoff waits `baseDelay * 2^attempt + jitter`
for each failed attempt; (3) if every invocation through attempt `retries`
(default 4) fails with a rate-limit signal, the failure raised by the final
attempt is re-raised unchanged after the bounded backoff waits. -/
theorem callCMA_retry_policy (fn : Nat → Except CMAError α)
    (retries baseDelay : Nat) (jitter : Nat → Nat) :
    (∀ fuel attempt e, fn attempt = .error e → isRateLimit e = false →
      callCMAGo fn retries baseDelay jitter (fuel + 1) attempt = (.error e, [])) ∧
    (∀ k a, k ≤ retries →
      (∀ i, i < k → ∃ e, fn i = .error e ∧ isRateLimit e = true) →
      fn k = .ok a →
      callCMA fn retries baseDelay jitter =
        (.ok a, (List.range k).map fun i => baseDelay * 2 ^ i + jitter i)) ∧
    (∀ efin,
      (∀ i, i < retries → ∃ e, fn i = .error e ∧ isRateLimit e = true) →
      fn retries = .error efin → isRateLimit efin = true →
      callCMA fn retries baseDelay jitter =
        (.error efin, (List.range retries).map fun i => baseDelay * 2 ^ i + jitter i)) := by
  refine ⟨?_, ?_, ?_⟩
  · intro fuel attempt e herr hnot
    simp [callCMAGo, herr, hnot]
  · intro k a hk hfail hok
    have := callCMAGo_success fn retries baseDelay jitter a k 0 (retries + 1)
      (by omega) (by omega) (fun i hi => by simpa using hfail i hi) (by simpa using hok)
    simpa [callCMA] using this
  · intro efin hfail herr hrate
    have := callCMAGo_exhaust fn retries baseDelay jitter efin retries 0 (retries + 1)
      (by omega) (by omega) (fun i hi => by simpa using hfail i hi) (by simpa using herr)
      hrate
    simpa [callCMA] using this

/-- Witness for C7: concrete runs of the three branches with the default
`retries = 4`, `baseDelay = 300` and jitter constantly 7: a 500 failure
propagates immediately; two 429 failures then success yields the success
after waits 307 and 607; five rate-limit failures re-raise the final
failure after four exponential waits. -/
theorem callCMA_retry_policy_witness :
    callCMAGo (fun _ => (.error ⟨some 500, none⟩ : Except CMAError Nat)) 4 300
      (fun _ => 7) 5 0 = (.error ⟨some 500, none⟩, []) ∧
    callCMA (fun i => if i < 2 then .error ⟨some 429, none⟩ else (.ok 42 : Except CMAError Nat))
      4 300 (fun _ => 7) = (.ok 42, [307, 607]) ∧
    callCMA (fun i => (.error ⟨some 429, some (toString i)⟩ : Except CMAError Nat))
      4 300 (fun _ => 7) =
      (.error ⟨some 429, some "4"⟩, [307, 607, 1207, 2407]) := by
  refine ⟨?_, ?_, ?_⟩
  · exact (callCMA_retry_policy (fun _ => (.error ⟨some 500, none⟩ : Except CMAError Nat))
      4 300 (fun _ => 7)).1 4 0 ⟨some 500, none⟩ rfl rfl
  · have h := (callCMA_retry_policy
      (fun i => if i < 2 then .error ⟨some 429, none⟩ else (.ok 42 : Except CMAError Nat))
      4 300 (fun _ => 7)).2.1 2 42 (by decide)
      (fun i hi => ⟨⟨some 429, none⟩, by
        have h01 : i = 0 ∨ i = 1 := by omega
        rcases h01 with rfl | rfl <;> exact ⟨rfl, rfl⟩⟩) (by simp)
    simpa using h
  · have h := (callCMA_retry_policy
      (fun i => (.error ⟨some 429, some (toString i)⟩ : Except CMAError Nat))
      4 300 (fun _ => 7)).2.2 ⟨some 429, some "4"⟩
      (fun i hi => ⟨⟨some 429, some (toString i)⟩, rfl, rfl⟩) rfl rfl
    simpa using h

/-- Counterexample to C8 as stated: with `maxPerSecond = 8`, a full window
of 8 timestamps all taken at the current instant (`now = oldest = 1000`)
and jitter 0, the remaining time until the oldest retained timestamp exits
the 1-second window is `windowMs - (now - oldest) = 1000` ms, but
`throttle()` computes a wait of `minInterval - (now - oldest) = 125` ms. -/
theorem throttleWait_claim_counterexample :
    throttleWait 8 (List.replicate 8 (1000 : Int)) 1000 0 = some 125 ∧
    windowMs - ((1000 : Int) - 1000) + 0 = 1000 ∧
    (125 : Int) ≠ 1000 := by
  refine ⟨rfl, by norm_num [windowMs], by norm_num⟩

/-- C8 amended: in `throttle()`, when the sliding log is full (number of
retained timestamps ≥ `maxPerSecond`), the computed wait before re-checking
equals the remaining time until the oldest retained timestamp is
`minInterval = ceil(windowMs / maxPerSecond)` milliseconds old — that is,
`max(minInterval - (now - oldest), 0)` — plus random jitter (not the time
until the oldest timestamp exits the full 1-second window). -/
theorem throttleWait_full_window (maxPerSecond : Nat) (calls : List Int)
    (now jitter : Int) (hfull : maxPerSecond ≤ (retainedCalls calls now).length)
    (hpos : 0 < maxPerSecond) :
    ∃ oldest rest, retainedCalls calls now = oldest :: rest ∧
      throttleWait maxPerSecond calls now jitter =
        some (max ((minInterval maxPerSecond : Int) - (now - oldest)) 0 + jitter) := by
  obtain ⟨oldest, rest, hcons⟩ : ∃ o r, retainedCalls calls now = o :: r := by
    cases h : retainedCalls calls now with
    | nil => rw [h] at hfull; simp at hfull; omega
    | cons o r => exact ⟨o, r, rfl⟩
  refine ⟨oldest, rest, hcons, ?_⟩
  simp only [throttleWait, hcons, List.headD_cons, if_pos (hcons ▸ hfull)]

/-- Witness for the amended C8 theorem at a concrete full window:
`maxPerSecond = 2`, retained log `[1500, 1600]`, `now = 1700`, jitter 5:
the wait is `max(500 - 200, 0) + 5 = 305`. -/
theorem throttleWait_full_window_witness :
    2 ≤ (retainedCalls [1500, 1600] (1700 : Int)).length ∧ 0 < 2 ∧
    (∃ oldest rest, retainedCalls [1500, 1600] (1700 : Int) = oldest :: rest ∧
      throttleWait 2 [1500, 1600] 1700 5 =
        some (max ((minInterval 2 : Int) - (1700 - oldest)) 0 + 5)) :=
  ⟨by decide, by norm_num,
    throttleWait_full_window 2 [1500, 1600] 1700 5 (by decide) (by norm_num)⟩

end RateLimiter

namespace RichText

/-! ## Structured-document merge engine (`src/lib/mergeRichText.js`)

A rich-text node is embedded as `RNode`: `nodeType`, the text `value` of
text nodes (`""` when the JS object has no `value` property), an optional
`marks` array (mark type strings), an opaque `data` payload (a `String`
standing for its JSON serialisation, `"{}"` for an empty object), and an
optional `content` array (`none` when the JS object has no `content`
property). `JSON.stringify` equality on nodes is the structural `jsonEq`,
and `clone` is the identity (the model has no aliasing). -/

inductive RNode where
  | mk (nodeType : String) (value : String) (marks : Option (List String))
       (data : String) (content : Option (List RNode))

def RNode.nodeType : RNode → String
  | .mk t _ _ _ _ => t

def RNode.value : RNode → String
  | .mk _ v _ _ _ => v

def RNode.marks : RNode → Option (List String)
  | .mk _ _ m _ _ => m

def RNode.data : RNode → String
  | .mk _ _ _ d _ => d

def RNode.content : RNode → Option (List RNode)
  | .mk _ _ _ _ c => c

/-- `newNode.content = blocks` — the JS assignment of a fresh `content`
array onto a cloned node (mergeRichText.js lines 81, 163, 167). -/
def RNode.setContent : RNode → List RNode → RNode
  | .mk t v m d _, blocks => .mk t v m d (some blocks)

mutual
/-- `jsonEq(a, b)` (mergeRichText.js line 418): `JSON.stringify` equality,
which on the embedded nodes is structural equality. -/
def jsonEq : RNode → RNode → Bool
  | .mk t1 v1 m1 d1 c1, .mk t2 v2 m2 d2 c2 =>
    t1 == t2 && v1 == v2 && m1 == m2 && d1 == d2 &&
      (match c1, c2 with
       | none, none => true
       | some l1, some l2 => jsonEqList l1 l2
       | _, _ => false)

def jsonEqList : List RNode → List RNode → Bool
  | [], [] => true
  | a :: as, b :: bs => jsonEq a b && jsonEqList as bs
  | _, _ => false
end

/-- `isRichTextDocument(val)` (mergeRichText.js lines 377–384). -/
def isRichTextDocument (n : RNode) : Bool :=
  n.nodeType == "document" && n.content.isSome

/-- `isInlineBlockType(nodeType)` (mergeRichText.js lines 386–397). -/
def isInlineBlockType (nodeType : String) : Bool :=
  nodeType == "paragraph" || nodeType == "heading-1" || nodeType == "heading-2" ||
  nodeType == "heading-3" || nodeType == "heading-4" || nodeType == "heading-5" ||
  nodeType == "heading-6" || nodeType == "blockquote"

/-- A flattened inline span (mergeRichText.js lines 184–193): character
range (`Int`, since inserted spans carry `-1`), active marks, the optional
hyperlink payload (its `data`), and the span text. -/
structure FlatSpan where
  first : Int
  stop : Int
  marks : List String
  hyperlink : Option String
  text : List Char
  deriving DecidableEq

/-- The flattened form of an inline block: full text plus parallel spans. -/
structure FlatPara where
  text : List Char
  spans : List FlatSpan

mutual
/-- One step of the `walk` closure of `flattenInlineBlock`
(mergeRichText.js lines 196–217), processing a single node against the
accumulated `(text, spans)` state (`pushSpan` inlined in the text case,
including its empty-text guard). -/
def walkNode (n : RNode) (activeMarks : List String) (activeHyperlink : Option String)
    (acc : List Char × List FlatSpan) : List Char × List FlatSpan :=
  match n with
  | .mk nodeType value marks nodeData content =>
    if nodeType = "text" then
      let t := value.data
      if t.isEmpty then acc
      else
        (acc.1 ++ t,
         acc.2 ++ [{ first := (acc.1.length : Int)
                     stop := (acc.1.length : Int) + t.length
                     marks := marks.getD activeMarks
                     hyperlink := activeHyperlink
                     text := t }])
    else if nodeType = "hyperlink" then
      match content with
      | some cs => walkNodes cs (marks.getD activeMarks) (some nodeData) acc
      | none => acc
    else
      match content with
      | some cs => walkNodes cs (marks.getD activeMarks) activeHyperlink acc
      | none => acc

/-- The `walk` loop over a node list (mergeRichText.js lines 196–217). -/
def walkNodes (ns : List RNode) (activeMarks : List String) (activeHyperlink : Option String)
    (acc : List Char × List FlatSpan) : List Char × List FlatSpan :=
  match ns with
  | [] => acc
  | n :: rest => walkNodes rest activeMarks activeHyperlink (walkNode n activeMarks activeHyperlink acc)
end

/-- `flattenInlineBlock(block)` (mergeRichText.js lines 180–221). -/
def flattenInlineBlock (block : RNode) : FlatPara :=
  let acc := walkNodes (block.content.getD []) [] none ([], [])
  { text := acc.1, spans := acc.2 }

/-- Insertion sort (the model of JS `Array.prototype.sort()` on mark type
strings, which sorts lexicographically). -/
def insertSorted (x : String) : List String → List String
  | [] => [x]
  | y :: ys => if x ≤ y then x :: y :: ys else y :: insertSorted x ys

def sortStrings : List String → List String
  | [] => []
  | x :: xs => insertSorted x (sortStrings xs)

/-- `keyFor(marks, hyperlink)` (mergeRichText.js lines 251–258). -/
def keyFor (marks : List String) (hyperlink : Option String) : String :=
  String.intercalate "|" (sortStrings marks) ++ "::" ++ hyperlink.getD ""

/-- `normalizeMarks(marks)` (mergeRichText.js lines 405–412): dedupe by mark
type, keeping first-insertion order. -/
def normalizeMarks (marks : List String) : List String :=
  marks.foldl (fun acc m => if acc.contains m then acc else acc ++ [m]) []

/-- The mutable state of `buildInlineBlockFromSpans`
(mergeRichText.js lines 224–275). -/
structure BuildState where
  content : List RNode
  currentHyperlink : Option String
  currentMarksKey : String
  currentMarks : List String
  currentText : List Char

/-- `flushText()` (mergeRichText.js lines 231–249). -/
def flushText (st : BuildState) : BuildState :=
  if st.currentText.isEmpty then st
  else
    let textNode : RNode :=
      .mk "text" (String.mk st.currentText) (some st.currentMarks) "{}" none
    let pushed : RNode :=
      match st.currentHyperlink with
      | some hdata => .mk "hyperlink" "" none hdata (some [textNode])
      | none => textNode
    { st with content := st.content ++ [pushed], currentText := [] }

/-- `buildInlineBlockFromSpans(nodeType, data, spans)`
(mergeRichText.js lines 224–275). -/
def buildInlineBlockFromSpans (nodeType : String) (data : String)
    (spans : List FlatSpan) : RNode :=
  let st0 : BuildState :=
    { content := []
      currentHyperlink := none
      currentMarksKey := ""
      currentMarks := []
      currentText := [] }
  let stFinal := flushText (spans.foldl
    (fun st s =>
      let k := keyFor s.marks s.hyperlink
      let st' :=
        if k ≠ st.currentMarksKey then
          let flushed := flushText st
          { flushed with
              currentMarksKey := k
              currentMarks := normalizeMarks s.marks
              currentHyperlink := s.hyperlink }
        else st
      { st' with currentText := st'.currentText ++ s.text })
    st0)
  .mk nodeType "" none data (some stFinal.content)

/-- JS `String.prototype.slice(i, j)` for the non-negative indices arising
in `sliceSpans`. -/
def jsSlice (l : List Char) (i j : Int) : List Char :=
  (l.take j.toNat).drop i.toNat

/-- The loop of `sliceSpans` (mergeRichText.js lines 326–340). -/
def sliceSpansGo : List FlatSpan → Int → Int → List FlatSpan
  | [], _, _ => []
  | s :: rest, start, stop =>
    if s.stop ≤ start || s.first ≥ stop then sliceSpansGo rest start stop
    else
      { first := max start s.first
        stop := min stop s.stop
        marks := s.marks
        hyperlink := s.hyperlink
        text := jsSlice s.text (max start s.first - s.first) (min stop s.stop - s.first) } ::
        sliceSpansGo rest start stop

/-- `sliceSpans(spans, start, end)` (mergeRichText.js lines 324–341). -/
def sliceSpans (spans : List FlatSpan) (start stop : Int) : List FlatSpan :=
  if start ≥ stop then [] else sliceSpansGo spans start stop

/-- `spanAtPosition(spans, pos)` (mergeRichText.js lines 343–353). -/
def spanAtPosition (spans : List FlatSpan) (pos : Int) : Option FlatSpan :=
  if pos < 0 then none
  else
    match spans.find? (fun s => pos ≥ s.first && pos < s.stop) with
    | some s => some s
    | none =>
      match spans.getLast? with
      | some lastSpan => if pos = lastSpan.stop then some lastSpan else none
      | none => none

/-- `sameMarks(a, b)` (mergeRichText.js lines 422–433). -/
def sameMarks (a b : List String) : Bool :=
  a.length == b.length &&
    String.intercalate "|" (sortStrings a) == String.intercalate "|" (sortStrings b)

/-- `sameHyperlink(a, b)` (mergeRichText.js lines 435–439). -/
def sameHyperlink (a b : Option String) : Bool :=
  match a, b with
  | none, none => true
  | some x, some y => x == y
  | _, _ => false

/-- The running-`prev` loop of `coalesceSpans`
(mergeRichText.js lines 355–371). -/
def coalesceGo (prev : FlatSpan) : List FlatSpan → List FlatSpan
  | [] => [prev]
  | s :: rest =>
    if sameMarks prev.marks s.marks && sameHyperlink prev.hyperlink s.hyperlink then
      coalesceGo { prev with text := prev.text ++ s.text } rest
    else
      prev :: coalesceGo s rest

/-- `coalesceSpans(spans)` (mergeRichText.js lines 355–371). -/
def coalesceSpans : List FlatSpan → List FlatSpan
  | [] => []
  | s :: rest => coalesceGo s rest

/-- The insertion-point lookup of `rebuildSpansFromDiffs`
(mergeRichText.js lines 299–301):
`spanAtPosition(targetSpans, cursor) || spanAtPosition(targetSpans, cursor - 1)`. -/
def inheritSpan (targetSpans : List FlatSpan) (pos : Int) : Option FlatSpan :=
  match spanAtPosition targetSpans pos with
  | some s => some s
  | none => spanAtPosition targetSpans (pos - 1)

/-- The span synthesised for an `insert` operation
(mergeRichText.js lines 298–311): formatting inherited from the target span
at the insertion point (empty marks / no hyperlink when no span covers it). -/
def insertedSpan (targetSpans : List FlatSpan) (cursor : Int) (text : List Char) : FlatSpan :=
  let inherit := inheritSpan targetSpans cursor
  { first := -1
    stop := -1
    marks := match inherit with | some s => s.marks | none => []
    hyperlink := match inherit with | some s => s.hyperlink | none => none
    text := text }

/-- The `for` loop of `rebuildSpansFromDiffs`
(mergeRichText.js lines 286–314), with the mutable `cursor` threaded as an
argument. -/
def rebuildSpansGo : List (Int × List Char) → List FlatSpan → Int → List FlatSpan
  | [], _, _ => []
  | (op, text) :: rest, targetSpans, cursor =>
    let len : Int := text.length
    if op = 0 ∨ op = -1 then
      sliceSpans targetSpans cursor (cursor + len) ++
        rebuildSpansGo rest targetSpans (cursor + len)
    else if op = 1 then
      insertedSpan targetSpans cursor text :: rebuildSpansGo rest targetSpans cursor
    else rebuildSpansGo rest targetSpans cursor

/-- `rebuildSpansFromDiffs(diffs, targetSpans)`
(mergeRichText.js lines 285–318). -/
def rebuildSpansFromDiffs (diffs : List (Int × List Char))
    (targetSpans : List FlatSpan) : List FlatSpan :=
  coalesceSpans (rebuildSpansGo diffs targetSpans 0)

/-- `mergeInlineBlock(srcBlock, tgtBlock)` (mergeRichText.js lines 89–109). -/
def mergeInlineBlock (srcBlock tgtBlock : RNode) : RNode :=
  let srcPara := flattenInlineBlock srcBlock
  let tgtPara := flattenInlineBlock tgtBlock
  let diffs := MergeText.diff_cleanupSemantic (MergeText.diff_main tgtPara.text srcPara.text)
  let mergedSpans := rebuildSpansFromDiffs diffs tgtPara.spans
  buildInlineBlockFromSpans tgtBlock.nodeType tgtBlock.data mergedSpans

/-- `coalesceAdjacentTextNodesInBlocks(blocks)` (mergeRichText.js lines
399–403): a no-op placeholder in the source. -/
def coalesceAdjacentTextNodesInBlocks (blocks : List RNode) : List RNode :=
  blocks

/-- The inner child-merging loop of `mergeListBlock`
(mergeRichText.js lines 138–160), pairing the children of two list items
by index. -/
def mergeItemChildren : List RNode → List RNode → List RNode
  | [], trest => trest
  | cs :: srest, [] => cs :: mergeItemChildren srest []
  | cs :: srest, ct :: trest =>
    (if cs.nodeType == ct.nodeType then
      (if isInlineBlockType ct.nodeType then [mergeInlineBlock cs ct]
       else if jsonEq cs ct then [ct]
       else [ct, cs])
     else [ct, cs]) ++ mergeItemChildren srest trest

/-- The item-pairing loop of `mergeListBlock`
(mergeRichText.js lines 119–165). -/
def mergeListItems : List RNode → List RNode → List RNode
  | [], ts => ts
  | s :: ss, [] => s :: mergeListItems ss []
  | s :: ss, t :: ts =>
    (if s.nodeType == t.nodeType then
      [t.setContent (coalesceAdjacentTextNodesInBlocks
        (mergeItemChildren (s.content.getD []) (t.content.getD [])))]
     else [t, s]) ++ mergeListItems ss ts

/-- `mergeListBlock(srcList, tgtList)` (mergeRichText.js lines 111–169). -/
def mergeListBlock (srcList tgtList : RNode) : RNode :=
  tgtList.setContent (mergeListItems (srcList.content.getD []) (tgtList.content.getD []))

/-- The per-index body of the block loop of `mergeRichTextDocuments`
(mergeRichText.js lines 44–78), for an index where both sides have a
block: one or two result blocks. -/
def mergeBlockPair (srcBlock tgtBlock : RNode) : List RNode :=
  if srcBlock.nodeType ≠ tgtBlock.nodeType then [tgtBlock, srcBlock]
  else if isInlineBlockType tgtBlock.nodeType then [mergeInlineBlock srcBlock tgtBlock]
  else if tgtBlock.nodeType == "unordered-list" || tgtBlock.nodeType == "ordered-list" then
    [mergeListBlock srcBlock tgtBlock]
  else if jsonEq srcBlock tgtBlock then [tgtBlock]
  else [tgtBlock, srcBlock]

/-- The index loop of `mergeRichTextDocuments`
(mergeRichText.js lines 25–79): blocks are paired positionally; a block on
only one side is kept/appended as-is. -/
def mergeBlockLists : List RNode → List RNode → List RNode
  | [], ts => ts
  | s :: ss, [] => s :: mergeBlockLists ss []
  | s :: ss, t :: ts => mergeBlockPair s t ++ mergeBlockLists ss ts

/-- `mergeRichTextDocuments(sourceDoc, targetDoc)`
(mergeRichText.js lines 14–83). -/
def mergeRichTextDocuments (sourceDoc targetDoc : RNode) : RNode :=
  if !isRichTextDocument sourceDoc || !isRichTextDocument targetDoc then
    targetDoc
  else
    targetDoc.setContent (coalesceAdjacentTextNodesInBlocks
      (mergeBlockLists (sourceDoc.content.getD []) (targetDoc.content.getD [])))

/-- Whether the paired blocks at one shared index produce a single merged
block (rather than target-then-source): kinds must match, and for kinds
merged atomically (neither inline-bearing nor list) the blocks must be
structurally identical. -/
def blockPairOk (s t : RNode) : Bool :=
  s.nodeType == t.nodeType &&
    (isInlineBlockType t.nodeType ||
     (t.nodeType == "unordered-list" || t.nodeType == "ordered-list") ||
     jsonEq s t)

/-- Number of shared indices whose block pair expands to two blocks. -/
def badPairCount : List RNode → List RNode → Nat
  | s :: ss, t :: ts => (if blockPairOk s t then 0 else 1) + badPairCount ss ts
  | _, _ => 0

/-- Every shared index carries an agreeing pair (kinds match; atomic pairs
structurally identical). -/
def blocksAligned : List RNode → List RNode → Bool
  | s :: ss, t :: ts => blockPairOk s t && blocksAligned ss ts
  | _, _ => true

lemma mergeBlockPair_length (s t : RNode) :
    (mergeBlockPair s t).length = if blockPairOk s t then 1 else 2 := by
  unfold mergeBlockPair blockPairOk
  by_cases h1 : s.nodeType = t.nodeType
  · simp only [h1, ne_eq, not_true_eq_false, if_false, beq_self_eq_true, Bool.true_and]
    by_cases h2 : isInlineBlockType t.nodeType
    · simp [h2]
    · simp only [Bool.not_eq_true] at h2
      by_cases h3 : (t.nodeType == "unordered-list" || t.nodeType == "ordered-list") = true
      · simp [h2, h3]
      · simp only [Bool.not_eq_true] at h3
        by_cases h4 : jsonEq s t
        · simp [h2, h3, h4]
        · simp only [Bool.not_eq_true] at h4
          simp [h2, h3, h4]
  · have hb : (s.nodeType == t.nodeType) = false := beq_eq_false_iff_ne.mpr h1
    simp [h1, hb]

lemma mergeBlockLists_nil_right (ss : List RNode) :
    (mergeBlockLists ss []).length = ss.length := by
  induction ss with
  | nil => simp [mergeBlockLists]
  | cons s ss ih => simp [mergeBlockLists, ih]

lemma mergeBlockLists_nil_left (ts : List RNode) :
    (mergeBlockLists [] ts).length = ts.length := by
  induction ts with
  | nil => simp [mergeBlockLists]
  | cons t ts ih => simp [mergeBlockLists, ih]

lemma mergeBlockLists_length (ss ts : List RNode) :
    (mergeBlockLists ss ts).length =
      max ss.length ts.length + badPairCount ss ts := by
  induction ss generalizing ts with
  | nil =>
    cases ts with
    | nil => simp [mergeBlockLists, badPairCount]
    | cons t ts => simp [mergeBlockLists_nil_left, badPairCount]
  | cons s ss ih =>
    cases ts with
    | nil =>
      simp [mergeBlockLists_nil_right, badPairCount]
    | cons t ts =>
      simp only [mergeBlockLists, List.length_append, List.length_cons, ih ts,
        mergeBlockPair_length, badPairCount]
      cases h : blockPairOk s t <;> simp [h] <;> omega

lemma badPairCount_zero_iff (ss ts : List RNode) :
    badPairCount ss ts = 0 ↔ blocksAligned ss ts = true := by
  induction ss generalizing ts with
  | nil => cases ts <;> simp [badPairCount, blocksAligned]
  | cons s ss ih =>
    cases ts with
    | nil => simp [badPairCount, blocksAligned]
    | cons t ts =>
      simp only [badPairCount, blocksAligned, Bool.and_eq_true]
      by_cases h : blockPairOk s t
      · simp [h, ih ts]
      · simp [h]

lemma content_setContent (n : RNode) (blocks : List RNode) :
    (RNode.setContent n blocks).content = some blocks := by
  cases n
  rfl

/-- Counterexample to C4 as stated: two documents each holding a single
opaque leaf block of the same kind `embedded-entry-block` but with
different payloads. The node kinds align at every shared index, yet the
merged document has 2 blocks, exceeding `max(1, 1) = 1`: atomically-merged
blocks that differ also expand the block count, not only diverging kinds. -/
theorem mergeRichText_block_count_counterexample :
    (RNode.mk "embedded-entry-block" "" none "A" none).nodeType =
      (RNode.mk "embedded-entry-block" "" none "B" none).nodeType ∧
    ((mergeRichTextDocuments
        (.mk "document" "" none "{}" (some [.mk "embedded-entry-block" "" none "A" none]))
        (.mk "document" "" none "{}" (some [.mk "embedded-entry-block" "" none "B" none]))).content.getD
      []).length = 2 ∧
    max 1 1 = 1 :=
  ⟨rfl, by decide, rfl⟩

/-- C4 amended: for every pair of well-formed structured documents, the
merged document's block count is `max(sourceBlocks, targetBlocks)` plus the
number of shared indices whose pair disagrees; in particular it is at least
the max, and it equals the max exactly when at every shared index the node
kinds align and every atomically-treated (non-inline, non-list) pair is
structurally identical — and exceeds it otherwise. -/
theorem mergeRichText_block_count (src tgt : RNode)
    (hs : isRichTextDocument src = true) (ht : isRichTextDocument tgt = true) :
    ((mergeRichTextDocuments src tgt).content.getD []).length =
      max (src.content.getD []).length (tgt.content.getD []).length +
        badPairCount (src.content.getD []) (tgt.content.getD []) ∧
    (((mergeRichTextDocuments src tgt).content.getD []).length =
        max (src.content.getD []).length (tgt.content.getD []).length ↔
      blocksAligned (src.content.getD []) (tgt.content.getD []) = true) := by
  have hmerge : mergeRichTextDocuments src tgt =
      tgt.setContent (coalesceAdjacentTextNodesInBlocks
        (mergeBlockLists (src.content.getD []) (tgt.content.getD []))) := by
    unfold mergeRichTextDocuments
    simp [hs, ht]
  rw [hmerge, coalesceAdjacentTextNodesInBlocks, content_setContent]
  simp only [Option.getD_some]
  constructor
  · exact mergeBlockLists_length _ _
  · rw [mergeBlockLists_length, ← badPairCount_zero_iff]
    omega

/-- Witness for the amended C4 theorem: two well-formed documents each with
the same single opaque block; all shared pairs agree and the merged block
count is exactly the max. -/
theorem mergeRichText_block_count_witness :
    isRichTextDocument
      (.mk "document" "" none "{}" (some [.mk "embedded-entry-block" "" none "A" none])) = true ∧
    isRichTextDocument
      (.mk "document" "" none "{}" (some [.mk "embedded-entry-block" "" none "A" none])) = true ∧
    (((mergeRichTextDocuments
        (.mk "document" "" none "{}" (some [.mk "embedded-entry-block" "" none "A" none]))
        (.mk "document" "" none "{}"
          (some [.mk "embedded-entry-block" "" none "A" none]))).content.getD []).length =
      max 1 1 + badPairCount [.mk "embedded-entry-block" "" none "A" none]
        [.mk "embedded-entry-block" "" none "A" none] ∧
    (((mergeRichTextDocuments
        (.mk "document" "" none "{}" (some [.mk "embedded-entry-block" "" none "A" none]))
        (.mk "document" "" none "{}"
          (some [.mk "embedded-entry-block" "" none "A" none]))).content.getD []).length = max 1 1 ↔
      blocksAligned [.mk "embedded-entry-block" "" none "A" none]
        [.mk "embedded-entry-block" "" none "A" none] = true)) :=
  ⟨rfl, rfl, mergeRichText_block_count _ _ rfl rfl⟩

/-- The target-text cursor advance contributed by a diff prefix: the summed
length of its equal and delete texts (insert operations do not move the
cursor). -/
def eqDelLenInt : List (Int × List Char) → Int
  | [] => 0
  | (op, text) :: rest =>
    (if op = 0 ∨ op = -1 then (text.length : Int) else 0) + eqDelLenInt rest

lemma rebuildSpansGo_append_insert (ts : List FlatSpan) (text : List Char) :
    ∀ (ds : List (Int × List Char)) (c : Int),
    rebuildSpansGo (ds ++ [(1, text)]) ts c =
      rebuildSpansGo ds ts c ++ [insertedSpan ts (c + eqDelLenInt ds) text] := by
  intro ds
  induction ds with
  | nil =>
    intro c
    have h0 : ¬((1 : Int) = 0 ∨ (1 : Int) = -1) := by norm_num
    simp [rebuildSpansGo, eqDelLenInt, h0]
  | cons d rest ih =>
    intro c
    obtain ⟨op, t⟩ := d
    by_cases h0 : op = 0 ∨ op = -1
    · simp only [List.cons_append, rebuildSpansGo, if_pos h0, List.append_eq, ih,
        eqDelLenInt, List.append_assoc, add_assoc]
    · by_cases h1 : op = 1
      · simp only [List.cons_append, rebuildSpansGo, if_neg h0, if_pos h1,
          eqDelLenInt, zero_add]
        exact congrArg (List.cons (insertedSpan ts c t)) (ih c)
      · simp only [List.cons_append, rebuildSpansGo, if_neg h0, if_neg h1,
          eqDelLenInt, zero_add]
        exact ih c

lemma sliceSpansGo_provenance (a b : Int) :
    ∀ (spans : List FlatSpan), ∀ sp ∈ sliceSpansGo spans a b,
      ∃ t ∈ spans, sp.marks = t.marks ∧ sp.hyperlink = t.hyperlink := by
  intro spans
  induction spans with
  | nil => simp [sliceSpansGo]
  | cons s rest ih =>
    intro sp hsp
    by_cases h : (s.stop ≤ a || s.first ≥ b : Bool)
    · rw [sliceSpansGo, if_pos h] at hsp
      obtain ⟨t, ht, hm⟩ := ih sp hsp
      exact ⟨t, List.mem_cons_of_mem s ht, hm⟩
    · rw [sliceSpansGo, if_neg h] at hsp
      rcases List.mem_cons.mp hsp with rfl | hmem
      · exact ⟨s, List.mem_cons_self s rest, rfl, rfl⟩
      · obtain ⟨t, ht, hm⟩ := ih sp hmem
        exact ⟨t, List.mem_cons_of_mem s ht, hm⟩

lemma sliceSpans_provenance (spans : List FlatSpan) (a b : Int) :
    ∀ sp ∈ sliceSpans spans a b,
      ∃ t ∈ spans, sp.marks = t.marks ∧ sp.hyperlink = t.hyperlink := by
  intro sp hsp
  rw [sliceSpans] at hsp
  by_cases h : a ≥ b
  · rw [if_pos h] at hsp
    simp at hsp
  · rw [if_neg h] at hsp
    exact sliceSpansGo_provenance a b spans sp hsp

lemma spanAtPosition_mem (ts : List FlatSpan) (p : Int) (s : FlatSpan)
    (h : spanAtPosition ts p = some s) : s ∈ ts := by
  unfold spanAtPosition at h
  by_cases hp : p < 0
  · simp [hp] at h
  · simp only [if_neg hp] at h
    cases hfind : ts.find? (fun s => p ≥ s.first && p < s.stop) with
    | some s0 =>
      simp only [hfind] at h
      obtain rfl : s0 = s := by injection h
      exact List.mem_of_find?_eq_some hfind
    | none =>
      simp only [hfind] at h
      cases hlast : ts.getLast? with
      | none => simp [hlast] at h
      | some lastSpan =>
        simp only [hlast] at h
        by_cases hpos : p = lastSpan.stop
        · simp only [if_pos hpos] at h
          obtain rfl : lastSpan = s := by injection h
          exact List.mem_of_mem_getLast? hlast
        · simp [if_neg hpos] at h

lemma inheritSpan_mem (ts : List FlatSpan) (p : Int) (s : FlatSpan)
    (h : inheritSpan ts p = some s) : s ∈ ts := by
  rw [inheritSpan] at h
  cases h1 : spanAtPosition ts p with
  | some s0 =>
    rw [h1] at h
    obtain rfl : s0 = s := by injection h
    exact spanAtPosition_mem ts p _ h1
  | none =>
    rw [h1] at h
    exact spanAtPosition_mem ts (p - 1) s h

lemma insertedSpan_provenance (ts : List FlatSpan) (c : Int) (text : List Char) :
    (∃ t ∈ ts, (insertedSpan ts c text).marks = t.marks ∧
      (insertedSpan ts c text).hyperlink = t.hyperlink) ∨
    ((insertedSpan ts c text).marks = [] ∧ (insertedSpan ts c text).hyperlink = none) := by
  cases hi : inheritSpan ts c with
  | some s =>
    left
    exact ⟨s, inheritSpan_mem ts c s hi, by simp [insertedSpan, hi]⟩
  | none =>
    right
    simp [insertedSpan, hi]

lemma rebuildSpansGo_provenance (ts : List FlatSpan) :
    ∀ (ds : List (Int × List Char)) (c : Int), ∀ sp ∈ rebuildSpansGo ds ts c,
      (∃ t ∈ ts, sp.marks = t.marks ∧ sp.hyperlink = t.hyperlink) ∨
      (sp.marks = [] ∧ sp.hyperlink = none) := by
  intro ds
  induction ds with
  | nil => simp [rebuildSpansGo]
  | cons d rest ih =>
    intro c sp hsp
    obtain ⟨op, t⟩ := d
    by_cases h0 : op = 0 ∨ op = -1
    · rw [rebuildSpansGo, if_pos h0] at hsp
      rcases List.mem_append.mp hsp with hs | hs
      · exact Or.inl (sliceSpans_provenance ts c _ sp hs)
      · exact ih _ sp hs
    · by_cases h1 : op = 1
      · rw [rebuildSpansGo, if_neg h0, if_pos h1] at hsp
        rcases List.mem_cons.mp hsp with rfl | hmem
        · exact insertedSpan_provenance ts c t
        · exact ih _ sp hmem
      · rw [rebuildSpansGo, if_neg h0, if_neg h1] at hsp
        exact ih _ sp hsp

lemma coalesceGo_provenance :
    ∀ (l : List FlatSpan) (prev : FlatSpan), ∀ sp ∈ coalesceGo prev l,
      (sp.marks = prev.marks ∧ sp.hyperlink = prev.hyperlink) ∨
      ∃ t ∈ l, sp.marks = t.marks ∧ sp.hyperlink = t.hyperlink := by
  intro l
  induction l with
  | nil =>
    intro prev sp hsp
    rw [coalesceGo] at hsp
    rcases List.mem_singleton.mp hsp with rfl
    exact Or.inl ⟨rfl, rfl⟩
  | cons s rest ih =>
    intro prev sp hsp
    rw [coalesceGo] at hsp
    by_cases h : (sameMarks prev.marks s.marks && sameHyperlink prev.hyperlink s.hyperlink : Bool)
    · rw [if_pos h] at hsp
      rcases ih _ sp hsp with ⟨hm, hh⟩ | ⟨t, ht, hm⟩
      · exact Or.inl ⟨hm, hh⟩
      · exact Or.inr ⟨t, List.mem_cons_of_mem s ht, hm⟩
    · rw [if_neg h] at hsp
      rcases List.mem_cons.mp hsp with rfl | hmem
      · exact Or.inl ⟨rfl, rfl⟩
      · rcases ih _ sp hmem with ⟨hm, hh⟩ | ⟨t, ht, hm⟩
        · exact Or.inr ⟨s, List.mem_cons_self s rest, hm, hh⟩
        · exact Or.inr ⟨t, List.mem_cons_of_mem s ht, hm⟩

lemma coalesceSpans_provenance (l : List FlatSpan) :
    ∀ sp ∈ coalesceSpans l,
      ∃ t ∈ l, sp.marks = t.marks ∧ sp.hyperlink = t.hyperlink := by
  intro sp hsp
  cases l with
  | nil => simp [coalesceSpans] at hsp
  | cons s rest =>
    rw [coalesceSpans] at hsp
    rcases coalesceGo_provenance rest s sp hsp with ⟨hm, hh⟩ | ⟨t, ht, hm⟩
    · exact ⟨s, List.mem_cons_self s rest, hm, hh⟩
    · exact ⟨t, List.mem_cons_of_mem s ht, hm⟩

/-- C5: in the structured-document inline merge, every span synthesised for
an `insert` diff operation inherits its formatting from the target span at
the insertion cursor — the span covering the cursor, else the one
immediately before it (`inheritSpan`), the cursor being the summed length
of the preceding equal/delete texts — and never from the source: (1) the
rebuild loop maps a trailing insert to exactly `insertedSpan` at that
cursor; (2) every span of `rebuildSpansFromDiffs`, which receives no source
formatting at all, carries the marks and hyperlink of some target span or
the empty formatting; (3) concretely, inserting "X" (italic in the source)
into a bold target span yields "X" merged into a bold text run. -/
theorem rebuildSpans_insert_formatting :
    (∀ (ds : List (Int × List Char)) (ts : List FlatSpan) (c : Int) (text : List Char),
      rebuildSpansGo (ds ++ [(1, text)]) ts c =
        rebuildSpansGo ds ts c ++ [insertedSpan ts (c + eqDelLenInt ds) text]) ∧
    (∀ (ds : List (Int × List Char)) (ts : List FlatSpan), ∀ sp ∈ rebuildSpansFromDiffs ds ts,
      (∃ t ∈ ts, sp.marks = t.marks ∧ sp.hyperlink = t.hyperlink) ∨
      (sp.marks = [] ∧ sp.hyperlink = none)) ∧
    mergeInlineBlock
      (.mk "paragraph" "" none "{}" (some [
        .mk "text" "a" (some []) "{}" none,
        .mk "text" "X" (some ["italic"]) "{}" none,
        .mk "text" "bc" (some []) "{}" none]))
      (.mk "paragraph" "" none "{}" (some [
        .mk "text" "abc" (some ["bold"]) "{}" none])) =
      .mk "paragraph" "" none "{}" (some [
        .mk "text" "aXbc" (some ["bold"]) "{}" none]) := by
  refine ⟨fun ds ts c text => rebuildSpansGo_append_insert ts text ds c, ?_, rfl⟩
  intro ds ts sp hsp
  rw [rebuildSpansFromDiffs] at hsp
  obtain ⟨t, ht, hm, hh⟩ := coalesceSpans_provenance _ sp hsp
  rcases rebuildSpansGo_provenance ts ds 0 t ht with ⟨u, hu, hum, huh⟩ | ⟨hm0, hh0⟩
  · exact Or.inl ⟨u, hu, hm.trans hum, hh.trans huh⟩
  · exact Or.inr ⟨hm.trans hm0, hh.trans hh0⟩

/-- Witness for C5: a lone insert of "X" into a single bold target span
produces the bold span, satisfying the provenance disjunction. -/
theorem rebuildSpans_insert_formatting_witness :
    (⟨-1, -1, ["bold"], none, ['X']⟩ : FlatSpan) ∈
      rebuildSpansFromDiffs [(1, ['X'])] [⟨0, 3, ["bold"], none, ['a', 'b', 'c']⟩] ∧
    ((∃ t ∈ [(⟨0, 3, ["bold"], none, ['a', 'b', 'c']⟩ : FlatSpan)],
        (⟨-1, -1, ["bold"], none, ['X']⟩ : FlatSpan).marks = t.marks ∧
        (⟨-1, -1, ["bold"], none, ['X']⟩ : FlatSpan).hyperlink = t.hyperlink) ∨
      ((⟨-1, -1, ["bold"], none, ['X']⟩ : FlatSpan).marks = [] ∧
        (⟨-1, -1, ["bold"], none, ['X']⟩ : FlatSpan).hyperlink = none)) :=
  ⟨by decide, rebuildSpans_insert_formatting.2.1 [(1, ['X'])]
    [⟨0, 3, ["bold"], none, ['a', 'b', 'c']⟩] ⟨-1, -1, ["bold"], none, ['X']⟩ (by decide)⟩

end RichText

namespace AdoptTree

/-! ## Adoption traversal (`src/lib/adoptTree.js`)

A field value is a closed union over the shapes the traversal inspects:
null, string, rich-text document, entry link (its `sys.id`), array of
values, or an opaque JSON payload (kept as its serialised `String`).
Per-locale maps and field maps are association lists; the JS spread
`{ ...m, [k]: v }` becomes `setKey` (replace in place, else append —
JS object keys are unique). The asynchronous store is a pure lookup
(`Store`), the CMA calls always going through the gateway; the content-type
cache is transparent (a cached lookup returns what a fetch would).
`JSON.stringify` comparison is the structural `valueEq`. -/

inductive Value where
  | vnull
  | str (s : String)
  | rich (doc : RichText.RNode)
  | links (elems : List Value)
  | link (sysId : String)
  | json (payload : String)

mutual
/-- `JSON.stringify` equality on field values (structural). -/
def valueEq : Value → Value → Bool
  | .vnull, .vnull => true
  | .str a, .str b => a == b
  | .rich a, .rich b => RichText.jsonEq a b
  | .links a, .links b => valueListEq a b
  | .link a, .link b => a == b
  | .json a, .json b => a == b
  | _, _ => false

def valueListEq : List Value → List Value → Bool
  | [], [] => true
  | a :: as, b :: bs => valueEq a b && valueListEq as bs
  | _, _ => false
end

/-- `isRichText(val)` (adoptTree.js lines 14–21). -/
def isRichText : Value → Bool
  | .rich d => d.nodeType == "document" && d.content.isSome
  | _ => false

/-- JS truthiness of a field value (objects and arrays are truthy, null is
falsy, a string is truthy when non-empty; opaque JSON payloads stand for
objects, hence truthy). -/
def truthy : Value → Bool
  | .vnull => false
  | .str s => !s.isEmpty
  | _ => true

/-- Association-list lookup: `m[k]`, `undefined` when absent. -/
def assocLookup : List (String × α) → String → Option α
  | [], _ => none
  | (k0, v0) :: rest, k => if k0 == k then some v0 else assocLookup rest k

/-- The JS spread `{ ...m, [k]: v }`: the entry for `k` is replaced in
place, or appended when absent (JS object keys are unique). -/
def setKey : List (String × α) → String → α → List (String × α)
  | [], k, v => [(k, v)]
  | (k0, v0) :: rest, k, v =>
    if k0 == k then (k, v) :: rest else (k0, v0) :: setKey rest k v

/-- `x === undefined || x === null` for a looked-up value. -/
def isNullish : Option Value → Bool
  | none => true
  | some .vnull => true
  | some _ => false

/-- Truthiness of a looked-up value (`undefined` is falsy). -/
def optTruthy : Option Value → Bool
  | some v => truthy v
  | none => false

/-- `a ?? b` on looked-up values (nullish coalescing). -/
def jsNullish (a b : Option Value) : Option Value :=
  match a with
  | none => b
  | some .vnull => b
  | some v => some v

/-- `l?.sys?.id` — the linked entry id of a link value. -/
def optSysId : Option Value → Option String
  | some (.link sysId) => some sysId
  | _ => none

/-- `a || b` on two possibly-undefined id strings (`""` is falsy). -/
def jsOrId (a b : Option String) : Option String :=
  match a with
  | some s => if s.isEmpty then b else some s
  | none => b

/-- `JSON.stringify(a) !== JSON.stringify(b)` guard on two looked-up values
(both known present at the call sites). -/
def optValueEq : Option Value → Option Value → Bool
  | some a, some b => valueEq a b
  | none, none => true
  | _, _ => false

/-- `arr.map(l => l?.sys?.id).filter(Boolean)` for a looked-up value that
may be an array of links. -/
def linkIdsOf : Option Value → List String
  | some (.links es) =>
    (es.filterMap fun e => match e with | .link i => some i | _ => none).filter
      (fun i => !i.isEmpty)
  | _ => []

/-- `Set.prototype.add`: insertion-ordered, deduplicating. -/
def addRefId (ids : List String) (id : String) : List String :=
  if ids.contains id then ids else ids ++ [id]

def isStr : Option Value → Bool
  | some (.str _) => true
  | _ => false

def getStr : Option Value → String
  | some (.str s) => s
  | _ => ""

def isRichTextOpt : Option Value → Bool
  | some v => isRichText v
  | none => false

def getRich : Option Value → RichText.RNode
  | some (.rich d) => d
  | _ => .mk "" "" none "" none

/-- One field declaration of a content type, with the pieces `adoptEntryTree`
inspects: `def.id`, `def.type`, `def.linkType`, `def.items?.type`,
`def.items?.linkType`, `def.localized`. -/
structure FieldDef where
  id : String
  type : String
  linkType : Option String
  itemsType : Option String
  itemsLinkType : Option String
  localized : Bool

/-- The mutable per-entry scan state of the field loop
(adoptTree.js lines 73–76): `newFields` (initially `{ ...fields }`),
`changed`, and the `refIds` set. -/
structure FieldScanState where
  newFields : List (String × List (String × Value))
  changed : Nat
  refIds : List String

/-- One guarded adoption write (the shared shape of every field update in
adoptTree.js: `newFields[fieldId] = { ...localizedValues, [targetLocale]:
clone(v) }; changed++` under a condition). -/
def adoptWrite (fieldId targetLocale : String) (localizedValues : List (String × Value))
    (cond : Bool) (v : Value) (st : FieldScanState) : FieldScanState :=
  if cond then
    { st with
      newFields := setKey st.newFields fieldId (setKey localizedValues targetLocale v)
      changed := st.changed + 1 }
  else st

/-- One iteration of the field loop of `adoptEntryTree`
(adoptTree.js lines 78–258), for a single content-type field. -/
def processField (sourceLocale targetLocale defaultLocale : String)
    (allowed : List String) (adoptAll : Bool)
    (fields : List (String × List (String × Value)))
    (st : FieldScanState) (fieldDef : FieldDef) : FieldScanState :=
  let fieldId := fieldDef.id
  match assocLookup fields fieldId with
  | none => st
  | some localizedValues =>
    if fieldDef.type == "Link" && fieldDef.linkType == some "Entry" then
      -- single entry link (lines 88–132)
      if fieldDef.localized then
        let srcLink := assocLookup localizedValues sourceLocale
        let tgtLink := assocLookup localizedValues targetLocale
        let st1 := adoptWrite fieldId targetLocale localizedValues
          (isNullish tgtLink && optTruthy srcLink && (adoptAll || allowed.contains fieldId))
          (srcLink.getD .vnull) st
        let st2 := adoptWrite fieldId targetLocale localizedValues
          ((adoptAll || allowed.contains fieldId) && optTruthy srcLink &&
            optTruthy tgtLink && !optValueEq srcLink tgtLink)
          (srcLink.getD .vnull) st1
        match jsOrId (optSysId srcLink) (optSysId tgtLink) with
        | some refId =>
          if refId.isEmpty then st2
          else { st2 with refIds := addRefId st2.refIds refId }
        | none => st2
      else
        let linkVal := jsNullish (assocLookup localizedValues defaultLocale)
          ((localizedValues.head?).map (·.2))
        match optSysId linkVal with
        | some refId =>
          if refId.isEmpty then st
          else { st with refIds := addRefId st.refIds refId }
        | none => st
    else if fieldDef.type == "Array" && fieldDef.itemsType == some "Link" &&
        fieldDef.itemsLinkType == some "Entry" then
      -- array of entry links (lines 137–192)
      if fieldDef.localized then
        let srcArr := assocLookup localizedValues sourceLocale
        let tgtArr := assocLookup localizedValues targetLocale
        let st1 := adoptWrite fieldId targetLocale localizedValues
          (isNullish tgtArr && optTruthy srcArr && (adoptAll || allowed.contains fieldId))
          (srcArr.getD .vnull) st
        let st2 := adoptWrite fieldId targetLocale localizedValues
          ((adoptAll || allowed.contains fieldId) &&
            (match srcArr with | some (.links _) => true | _ => false) &&
            (match tgtArr with | some (.links _) => true | _ => false) &&
            !optValueEq srcArr tgtArr)
          (srcArr.getD .vnull) st1
        { st2 with refIds := (linkIdsOf srcArr ++ linkIdsOf tgtArr).foldl addRefId st2.refIds }
      else
        let arrVal := jsNullish (assocLookup localizedValues defaultLocale)
          ((localizedValues.head?).map (·.2))
        { st with refIds := (linkIdsOf arrVal).foldl addRefId st.refIds }
    else
      -- localized scalars / strings / rich text (lines 197–257)
      if fieldDef.localized then
        if !adoptAll && !allowed.contains fieldId then st
        else
          let srcVal := assocLookup localizedValues sourceLocale
          let tgtVal := assocLookup localizedValues targetLocale
          if isNullish tgtVal then
            match srcVal with
            | some sv => adoptWrite fieldId targetLocale localizedValues true sv st
            | none => st
          else if isStr srcVal && isStr tgtVal then
            let merged := MergeText.mergeSourceAdditionsIntoTarget (getStr srcVal) (getStr tgtVal)
            adoptWrite fieldId targetLocale localizedValues
              (merged != getStr tgtVal) (.str merged) st
          else if isRichTextOpt srcVal && isRichTextOpt tgtVal then
            let mergedDoc := RichText.mergeRichTextDocuments (getRich srcVal) (getRich tgtVal)
            adoptWrite fieldId targetLocale localizedValues
              (!RichText.jsonEq mergedDoc (getRich tgtVal)) (.rich mergedDoc) st
          else if isRichTextOpt srcVal && !isRichTextOpt tgtVal then st
          else
            match srcVal with
            | some sv =>
              adoptWrite fieldId targetLocale localizedValues
                (!valueEq sv (tgtVal.getD .vnull)) sv st
            | none => st
      else st

/-- The whole field loop of `adoptEntryTree` (adoptTree.js lines 72–258),
starting from `newFields = { ...fields }`, `changed = 0` and an empty
`refIds` set. -/
def processFields (sourceLocale targetLocale defaultLocale : String)
    (allowed : List String) (adoptAll : Bool) (ctFields : List FieldDef)
    (fields : List (String × List (String × Value))) : FieldScanState :=
  ctFields.foldl (processField sourceLocale targetLocale defaultLocale allowed adoptAll fields)
    { newFields := fields, changed := 0, refIds := [] }

/-- A stored entry: its content-type id and its fields
(`fieldId -> localeCode -> value`). -/
structure Entry where
  contentTypeId : String
  fields : List (String × List (String × Value))

/-- The remote store: entries and content types by id. -/
structure Store where
  entries : List (String × Entry)
  contentTypes : List (String × List FieldDef)

/-- The traversal summary (adoptTree.js lines 36–40). -/
structure Summary where
  updatedEntries : Nat
  changedFields : Nat
  traversedEntries : Nat
  deriving DecidableEq

/-- Outcome of one `adoptEntryTree` invocation: a summary with the final
visited set and the ordered log of entry ids fetched, a propagated remote
failure (entry or content type not found), or exhausted recursion fuel
(unreachable with fuel exceeding the number of unvisited entries). -/
inductive AdoptResult where
  | ok (summary : Summary) (visited : List String) (fetched : List String)
  | fetchFailed
  | outOfFuel
  deriving DecidableEq

/-- One iteration of the child-recursion loop of `adoptEntryTree`
(adoptTree.js lines 282–300): run the recursive adoption (`go`) on one
child id with the accumulated visited set, add its summary, and append its
fetch log; a propagated failure short-circuits the loop. -/
def adoptChildStep (go : String → List String → AdoptResult)
    (acc : AdoptResult) (childId : String) : AdoptResult :=
  match acc with
  | .ok s v f =>
    match go childId v with
    | .ok s2 v2 f2 =>
      .ok ⟨s.updatedEntries + s2.updatedEntries, s.changedFields + s2.changedFields,
        s.traversedEntries + s2.traversedEntries⟩ v2 (f ++ f2)
    | e => e
  | e => e

/-- `adoptEntryTree` (adoptTree.js lines 23–303): the guard on empty /
already-visited ids, the entry and content-type fetches, the field loop,
the single write-back (summary increments), and the recursion into the
collected `refIds`, threading the shared `visited` set. The first `Nat` is
recursion fuel standing for the call stack. -/
def adoptGo (store : Store) (sourceLocale targetLocale defaultLocale : String)
    (selected : List (String × List String)) (adoptAll : Bool) :
    Nat → String → List String → AdoptResult
  | 0, _, _ => .outOfFuel
  | fuel + 1, entryId, visited =>
    if entryId.isEmpty || visited.contains entryId then
      .ok ⟨0, 0, 0⟩ visited []
    else
      let visited1 := visited ++ [entryId]
      match assocLookup store.entries entryId with
      | none => .fetchFailed
      | some entry =>
        match assocLookup store.contentTypes entry.contentTypeId with
        | none => .fetchFailed
        | some ctFields =>
          let allowed := (assocLookup selected entryId).getD []
          let scan := processFields sourceLocale targetLocale defaultLocale allowed adoptAll
            ctFields entry.fields
          let selfSummary : Summary :=
            if 0 < scan.changed then ⟨1, scan.changed, 1⟩ else ⟨0, 0, 1⟩
          scan.refIds.foldl
            (adoptChildStep
              (adoptGo store sourceLocale targetLocale defaultLocale selected adoptAll fuel))
            (.ok selfSummary visited1 [entryId])

end AdoptTree

namespace AdoptTree

/-- C3 (code bug): in `adoptEntryTree`, when the target-locale value is a
structured document but the source-locale value is a plain string, the
mixed-kind guard (`isRichText(srcVal) && !isRichText(tgtVal)`) does not
fire, and the deep-copy fallback overwrites the target's rich-text document
with the source string — the field is not skipped, contradicting the
symmetric skip the code's own comment ("If one is rich text and the other
isn't → skip (insert-only)") and the insert-only contract describe. -/
theorem adopt_mixed_kind_not_skipped :
    isRichText (.str "hello") = false ∧
    isRichText (.rich (.mk "document" "" none "{}" (some []))) = true ∧
    (processFields "en" "de" "en" [] true
      [⟨"body", "Object", none, none, none, true⟩]
      [("body", [("en", .str "hello"),
                 ("de", .rich (.mk "document" "" none "{}" (some [])))])]).changed = 1 ∧
    (processFields "en" "de" "en" [] true
      [⟨"body", "Object", none, none, none, true⟩]
      [("body", [("en", .str "hello"),
                 ("de", .rich (.mk "document" "" none "{}" (some [])))])]).newFields =
      [("body", [("en", .str "hello"), ("de", .str "hello")])] :=
  ⟨rfl, rfl, rfl, rfl⟩

lemma assocLookup_setKey (m : List (String × α)) (k : String) (v : α) (k2 : String) :
    assocLookup (setKey m k v) k2 = if k2 = k then some v else assocLookup m k2 := by
  induction m with
  | nil =>
    by_cases h : k2 = k
    · simp [setKey, assocLookup, h]
    · have : (k == k2) = false := by
        simpa using fun hk => h hk.symm
      simp [setKey, assocLookup, this, h]
  | cons p rest ih =>
    obtain ⟨k0, v0⟩ := p
    by_cases hk : k0 = k
    · subst hk
      simp only [setKey, beq_self_eq_true, if_true]
      by_cases h2 : k2 = k0
      · simp [assocLookup, h2]
      · have hne : (k0 == k2) = false := by
          simpa using fun hk => h2 hk.symm
        simp [assocLookup, hne, h2]
    · have hne : (k0 == k) = false := by
        simpa using hk
      simp only [setKey, hne, Bool.false_eq_true, if_false]
      by_cases h2 : k0 = k2
      · have hb : (k0 == k2) = true := by simpa using h2
        have hk2 : ¬k2 = k := fun h => hk (h2.trans h)
        simp [assocLookup, hb, hk2]
      · have hne2 : (k0 == k2) = false := by simpa using h2
        simp [assocLookup, hne2, ih]

lemma setKey_setKey (m : List (String × α)) (k : String) (v1 v2 : α) :
    setKey (setKey m k v1) k v2 = setKey m k v2 := by
  induction m with
  | nil => simp [setKey]
  | cons p rest ih =>
    obtain ⟨k0, v0⟩ := p
    by_cases hk : k0 = k
    · subst hk
      simp [setKey]
    · have hne : (k0 == k) = false := by simpa using hk
      simp [setKey, hne, ih]

lemma adoptWrite_newFields_or (tL : String) (st : FieldScanState) (fid : String)
    (lv : List (String × Value)) (c : Bool) (v : Value) :
    (adoptWrite fid tL lv c v st).newFields = st.newFields ∨
    ∃ lv2 v2, some lv = some lv2 ∧
      (adoptWrite fid tL lv c v st).newFields = setKey st.newFields fid (setKey lv2 tL v2) := by
  cases c
  · exact Or.inl rfl
  · exact Or.inr ⟨lv, v, rfl, rfl⟩

lemma adoptWrite2_newFields_or (tL : String) (st : FieldScanState) (fid : String)
    (lv : List (String × Value)) (c1 c2 : Bool) (v1 v2 : Value) :
    (adoptWrite fid tL lv c2 v2 (adoptWrite fid tL lv c1 v1 st)).newFields = st.newFields ∨
    ∃ lv2 vb, some lv = some lv2 ∧
      (adoptWrite fid tL lv c2 v2 (adoptWrite fid tL lv c1 v1 st)).newFields =
        setKey st.newFields fid (setKey lv2 tL vb) := by
  cases c1 <;> cases c2
  · exact Or.inl rfl
  · exact Or.inr ⟨lv, v2, rfl, rfl⟩
  · exact Or.inr ⟨lv, v1, rfl, rfl⟩
  · exact Or.inr ⟨lv, v2, rfl, by simp [adoptWrite, setKey_setKey]⟩

lemma processField_newFields (sL tL dL : String) (allowed : List String) (adoptAll : Bool)
    (fields : List (String × List (String × Value))) (st : FieldScanState) (d : FieldDef) :
    (processField sL tL dL allowed adoptAll fields st d).newFields = st.newFields ∨
    ∃ lv v, assocLookup fields d.id = some lv ∧
      (processField sL tL dL allowed adoptAll fields st d).newFields =
        setKey st.newFields d.id (setKey lv tL v) := by
  unfold processField
  dsimp only
  cases hlv : assocLookup fields d.id with
  | none => exact Or.inl rfl
  | some lv =>
    dsimp only
    repeat' split
    all_goals
      first
      | exact Or.inl rfl
      | exact adoptWrite_newFields_or tL st d.id lv _ _
      | exact adoptWrite2_newFields_or tL st d.id lv _ _ _ _

lemma processFields_newFields_inv (sL tL dL : String) (allowed : List String)
    (adoptAll : Bool) (fields : List (String × List (String × Value))) :
    ∀ (ct : List FieldDef) (st : FieldScanState),
      (∀ fid, assocLookup st.newFields fid = assocLookup fields fid ∨
        ∃ lv v, assocLookup fields fid = some lv ∧
          assocLookup st.newFields fid = some (setKey lv tL v)) →
      ∀ fid,
        assocLookup (ct.foldl (processField sL tL dL allowed adoptAll fields) st).newFields
          fid = assocLookup fields fid ∨
        ∃ lv v, assocLookup fields fid = some lv ∧
          assocLookup (ct.foldl (processField sL tL dL allowed adoptAll fields) st).newFields
            fid = some (setKey lv tL v) := by
  intro ct
  induction ct with
  | nil => exact fun st h fid => h fid
  | cons d ct ih =>
    intro st h fid
    rw [List.foldl_cons]
    apply ih
    intro fid2
    rcases processField_newFields sL tL dL allowed adoptAll fields st d with hnf | ⟨lv, v, hlook, hnf⟩
    · rw [hnf]
      exact h fid2
    · rw [hnf, assocLookup_setKey]
      by_cases hfid : fid2 = d.id
      · simp only [hfid, if_true, if_pos rfl]
        exact Or.inr ⟨lv, v, hfid ▸ hlook, rfl⟩
      · simp only [if_neg hfid]
        exact h fid2

/-- C10: for every field `adoptEntryTree` writes, the written per-locale
value map is `{ ...fetchedMap, [targetLocale]: v }` — it differs from the
fetched one only at the target-locale key — and fields it does not modify
are carried over exactly as fetched; consequently the value stored under
every locale other than the target locale is preserved unchanged. -/
theorem adopt_locale_frame (sL tL dL : String) (allowed : List String) (adoptAll : Bool)
    (ctFields : List FieldDef) (fields : List (String × List (String × Value))) :
    (∀ fieldId,
      assocLookup (processFields sL tL dL allowed adoptAll ctFields fields).newFields
        fieldId = assocLookup fields fieldId ∨
      ∃ lv v, assocLookup fields fieldId = some lv ∧
        assocLookup (processFields sL tL dL allowed adoptAll ctFields fields).newFields
          fieldId = some (setKey lv tL v)) ∧
    (∀ fieldId loc, loc ≠ tL →
      (assocLookup (processFields sL tL dL allowed adoptAll ctFields fields).newFields
        fieldId).bind (fun lv => assocLookup lv loc) =
      (assocLookup fields fieldId).bind (fun lv => assocLookup lv loc)) := by
  have hmain : ∀ fieldId,
      assocLookup (processFields sL tL dL allowed adoptAll ctFields fields).newFields
        fieldId = assocLookup fields fieldId ∨
      ∃ lv v, assocLookup fields fieldId = some lv ∧
        assocLookup (processFields sL tL dL allowed adoptAll ctFields fields).newFields
          fieldId = some (setKey lv tL v) :=
    processFields_newFields_inv sL tL dL allowed adoptAll fields ctFields
      { newFields := fields, changed := 0, refIds := [] } (fun _ => Or.inl rfl)
  refine ⟨hmain, ?_⟩
  intro fid loc hloc
  rcases hmain fid with heq | ⟨lv, v, hlook, hset⟩
  · rw [heq]
  · rw [hset, hlook]
    simp only [Option.some_bind]
    rw [assocLookup_setKey]
    simp [hloc]

/-- Witness for C10 at a concrete entry: one localized string field with an
"en" and a "de" value, merged from "en" into "de" with `adoptAll`; the "en"
value is untouched. -/
theorem adopt_locale_frame_witness :
    (assocLookup (processFields "en" "de" "en" [] true
        [⟨"body", "Object", none, none, none, true⟩]
        [("body", [("en", Value.str "hi"), ("de", Value.str "x")])]).newFields "body" =
      assocLookup [("body", [("en", Value.str "hi"), ("de", Value.str "x")])] "body" ∨
    ∃ lv v, assocLookup [("body", [("en", Value.str "hi"), ("de", Value.str "x")])] "body" =
        some lv ∧
      assocLookup (processFields "en" "de" "en" [] true
        [⟨"body", "Object", none, none, none, true⟩]
        [("body", [("en", Value.str "hi"), ("de", Value.str "x")])]).newFields "body" =
        some (setKey lv "de" v)) ∧
    ("en" ≠ "de") ∧
    (assocLookup (processFields "en" "de" "en" [] true
        [⟨"body", "Object", none, none, none, true⟩]
        [("body", [("en", Value.str "hi"), ("de", Value.str "x")])]).newFields "body").bind
      (fun lv => assocLookup lv "en") =
    (assocLookup [("body", [("en", Value.str "hi"), ("de", Value.str "x")])] "body").bind
      (fun lv => assocLookup lv "en") :=
  ⟨(adopt_locale_frame "en" "de" "en" [] true
      [⟨"body", "Object", none, none, none, true⟩]
      [("body", [("en", Value.str "hi"), ("de", Value.str "x")])]).1 "body",
   by decide,
   (adopt_locale_frame "en" "de" "en" [] true
      [⟨"body", "Object", none, none, none, true⟩]
      [("body", [("en", Value.str "hi"), ("de", Value.str "x")])]).2 "body" "en" (by decide)⟩

lemma assocLookup_mem (m : List (String × α)) (k : String) (a : α)
    (h : assocLookup m k = some a) : k ∈ m.map Prod.fst := by
  induction m with
  | nil => simp [assocLookup] at h
  | cons p rest ih =>
    obtain ⟨k0, v0⟩ := p
    by_cases hk : k0 = k
    · simp [hk]
    · have hne : (k0 == k) = false := by simpa using hk
      rw [assocLookup, hne] at h
      simp only [Bool.false_eq_true, if_false] at h
      simp [ih h]

/-- The number of store entry ids not yet visited (the decreasing measure of
the traversal). -/
def unvisitedCount (store : Store) (visited : List String) : Nat :=
  ((store.entries.map Prod.fst).toFinset \ visited.toFinset).card

lemma unvisitedCount_mono (store : Store) {v1 v2 : List String}
    (h : ∀ x ∈ v1, x ∈ v2) : unvisitedCount store v2 ≤ unvisitedCount store v1 := by
  apply Finset.card_le_card
  apply Finset.sdiff_subset_sdiff (Finset.Subset.refl _)
  intro x hx
  rw [List.mem_toFinset] at hx ⊢
  exact h x hx

lemma unvisitedCount_strict (store : Store) (visited : List String) (id : String)
    (hin : id ∈ store.entries.map Prod.fst) (hout : id ∉ visited) :
    unvisitedCount store (visited ++ [id]) < unvisitedCount store visited := by
  apply Finset.card_lt_card
  rw [Finset.ssubset_iff_of_subset]
  · exact ⟨id, by simp [Finset.mem_sdiff, List.mem_toFinset, hin, hout],
      by simp [Finset.mem_sdiff, List.mem_toFinset]⟩
  · apply Finset.sdiff_subset_sdiff (Finset.Subset.refl _)
    intro x hx
    rw [List.mem_toFinset] at hx ⊢
    simp [hx]

lemma foldl_preserve {g : AdoptResult → String → AdoptResult} (P : AdoptResult → Prop)
    (hstep : ∀ acc id, P acc → P (g acc id)) :
    ∀ (ids : List String) (acc : AdoptResult), P acc → P (ids.foldl g acc) := by
  intro ids
  induction ids with
  | nil => exact fun acc h => h
  | cons id ids ih => exact fun acc h => ih _ (hstep acc id h)

/-- Structural invariant of successful `adoptEntryTree` runs: the visited
set only grows, it grows only by store entry ids, and the fetch log is
duplicate-free, listing ids that were unvisited at call entry and visited
at exit. -/
lemma adoptGo_ok_invariant (store : Store) (sL tL dL : String)
    (sel : List (String × List String)) (aAll : Bool) :
    ∀ (fuel : Nat) (entryId : String) (visited : List String) (s : Summary)
      (v f : List String),
      adoptGo store sL tL dL sel aAll fuel entryId visited = .ok s v f →
      (∀ x ∈ visited, x ∈ v) ∧
      (∀ x ∈ v, x ∈ visited ∨ x ∈ store.entries.map Prod.fst) ∧
      f.Nodup ∧ (∀ x ∈ f, x ∉ visited ∧ x ∈ v) := by
  intro fuel
  induction fuel with
  | zero =>
    intro entryId visited s v f h
    simp [adoptGo] at h
  | succ fuel ih =>
    intro entryId visited s v f h
    rw [adoptGo] at h
    by_cases hguard : (entryId.isEmpty || visited.contains entryId) = true
    · rw [if_pos hguard] at h
      obtain ⟨hs, hv, hf⟩ := AdoptResult.ok.inj h
      subst hv; subst hf
      exact ⟨fun x hx => hx, fun x hx => Or.inl hx, List.nodup_nil, by simp⟩
    · rw [if_neg hguard] at h
      have hnotvis : entryId ∉ visited := fun hx => hguard (by simp [hx])
      cases hent : assocLookup store.entries entryId with
      | none =>
        simp only [hent] at h
        exact AdoptResult.noConfusion h
      | some entry =>
        simp only [hent] at h
        cases hct : assocLookup store.contentTypes entry.contentTypeId with
        | none =>
          simp only [hct] at h
          exact AdoptResult.noConfusion h
        | some ctFields =>
          simp only [hct] at h
          set P : AdoptResult → Prop := fun r => ∀ s1 v1 f1, r = .ok s1 v1 f1 →
            (∀ x ∈ visited, x ∈ v1) ∧
            (∀ x ∈ v1, x ∈ visited ∨ x ∈ store.entries.map Prod.fst) ∧
            f1.Nodup ∧ (∀ x ∈ f1, x ∉ visited ∧ x ∈ v1) with hP
          have hstep : ∀ acc id,
              P acc → P (adoptChildStep (adoptGo store sL tL dL sel aAll fuel) acc id) := by
            intro acc id hPacc s1 v1 f1 hok
            cases acc with
            | ok s0 v0 f0 =>
              simp only [adoptChildStep] at hok
              cases hchild : adoptGo store sL tL dL sel aAll fuel id v0 with
              | ok s2 v2 f2 =>
                simp only [hchild] at hok
                obtain ⟨hs, hv, hf⟩ := AdoptResult.ok.inj hok
                subst hv; subst hf
                obtain ⟨q1, q2, q3, q4⟩ := hPacc s0 v0 f0 rfl
                obtain ⟨c1, c2, c3, c4⟩ := ih id v0 s2 v2 f2 hchild
                refine ⟨fun x hx => c1 x (q1 x hx), ?_, ?_, ?_⟩
                · intro x hx
                  rcases c2 x hx with hx0 | hx0
                  · exact q2 x hx0
                  · exact Or.inr hx0
                · refine q3.append c3 ?_
                  intro a ha hb
                  exact (c4 a hb).1 (q4 a ha).2
                · intro x hx
                  rcases List.mem_append.mp hx with hx0 | hx0
                  · exact ⟨(q4 x hx0).1, c1 x (q4 x hx0).2⟩
                  · exact ⟨fun hvx => (c4 x hx0).1 (q1 x hvx), (c4 x hx0).2⟩
              | fetchFailed => simp [hchild] at hok
              | outOfFuel => simp [hchild] at hok
            | fetchFailed => simp [adoptChildStep] at hok
            | outOfFuel => simp [adoptChildStep] at hok
          have hP0 : ∀ s0 : Summary, P (.ok s0 (visited ++ [entryId]) [entryId]) := by
            intro s0 s1 v1 f1 hok
            obtain ⟨hs, hv, hf⟩ := AdoptResult.ok.inj hok
            subst hv; subst hf
            refine ⟨fun x hx => List.mem_append.mpr (Or.inl hx), ?_,
              List.nodup_singleton _, ?_⟩
            · intro x hx
              rcases List.mem_append.mp hx with hx0 | hx0
              · exact Or.inl hx0
              · rcases List.mem_singleton.mp hx0 with rfl
                exact Or.inr (assocLookup_mem _ _ _ hent)
            · intro x hx
              rcases List.mem_singleton.mp hx with rfl
              exact ⟨hnotvis, List.mem_append.mpr (Or.inr (List.mem_singleton.mpr rfl))⟩
          exact (foldl_preserve P hstep _ _ (hP0 _)) s v f h

/-- Fuel sufficiency: with more fuel than there are unvisited store
entries, the traversal never exhausts its fuel — the visited-set guard
breaks every cycle. -/
lemma adoptGo_no_outOfFuel (store : Store) (sL tL dL : String)
    (sel : List (String × List String)) (aAll : Bool) :
    ∀ (fuel : Nat) (entryId : String) (visited : List String),
      unvisitedCount store visited < fuel →
      adoptGo store sL tL dL sel aAll fuel entryId visited ≠ .outOfFuel := by
  intro fuel
  induction fuel with
  | zero =>
    intro entryId visited hcount
    exact absurd hcount (Nat.not_lt_zero _)
  | succ fuel ih =>
    intro entryId visited hcount
    rw [adoptGo]
    by_cases hguard : (entryId.isEmpty || visited.contains entryId) = true
    · rw [if_pos hguard]
      simp
    · rw [if_neg hguard]
      have hnotvis : entryId ∉ visited := fun hx => hguard (by simp [hx])
      cases hent : assocLookup store.entries entryId with
      | none => simp
      | some entry =>
        dsimp only
        cases hct : assocLookup store.contentTypes entry.contentTypeId with
        | none => simp
        | some ctFields =>
          dsimp only
          have hstrict : unvisitedCount store (visited ++ [entryId]) <
              unvisitedCount store visited :=
            unvisitedCount_strict store visited entryId
              (assocLookup_mem _ _ _ hent) hnotvis
          have P2step : ∀ acc id,
              (acc ≠ .outOfFuel ∧ ∀ s1 v1 f1, acc = .ok s1 v1 f1 →
                ∀ x ∈ visited ++ [entryId], x ∈ v1) →
              (adoptChildStep (adoptGo store sL tL dL sel aAll fuel) acc id ≠ .outOfFuel ∧
                ∀ s1 v1 f1,
                  adoptChildStep (adoptGo store sL tL dL sel aAll fuel) acc id = .ok s1 v1 f1 →
                  ∀ x ∈ visited ++ [entryId], x ∈ v1) := by
            intro acc id hP
            obtain ⟨hne, hvis⟩ := hP
            cases acc with
            | ok s0 v0 f0 =>
              simp only [adoptChildStep]
              cases hchild : adoptGo store sL tL dL sel aAll fuel id v0 with
              | ok s2 v2 f2 =>
                refine ⟨by simp, ?_⟩
                intro s1 v1 f1 hok x hx
                obtain ⟨hs, hv, hf⟩ := AdoptResult.ok.inj hok
                subst hv
                have hsub := (adoptGo_ok_invariant store sL tL dL sel aAll
                  fuel id v0 s2 v2 f2 hchild).1
                exact hsub x (hvis s0 v0 f0 rfl x hx)
              | fetchFailed =>
                exact ⟨by simp, fun s1 v1 f1 hok => absurd hok (by simp)⟩
              | outOfFuel =>
                have hv0 : ∀ x ∈ visited ++ [entryId], x ∈ v0 := hvis s0 v0 f0 rfl
                have hlt : unvisitedCount store v0 < fuel := by
                  have h1 : unvisitedCount store v0 ≤
                      unvisitedCount store (visited ++ [entryId]) :=
                    unvisitedCount_mono store hv0
                  omega
                exact absurd hchild (ih id v0 hlt)
            | fetchFailed =>
              exact ⟨by simp [adoptChildStep], fun s1 v1 f1 hok => absurd hok (by simp [adoptChildStep])⟩
            | outOfFuel => exact absurd rfl hne
          have h0 : (AdoptResult.ok
                (if 0 < (processFields sL tL dL ((assocLookup sel entryId).getD []) aAll
                    ctFields entry.fields).changed then
                  (⟨1, (processFields sL tL dL ((assocLookup sel entryId).getD []) aAll
                    ctFields entry.fields).changed, 1⟩ : Summary)
                else ⟨0, 0, 1⟩) (visited ++ [entryId]) [entryId] ≠ .outOfFuel) ∧
              ∀ s1 v1 f1, AdoptResult.ok
                (if 0 < (processFields sL tL dL ((assocLookup sel entryId).getD []) aAll
                    ctFields entry.fields).changed then
                  (⟨1, (processFields sL tL dL ((assocLookup sel entryId).getD []) aAll
                    ctFields entry.fields).changed, 1⟩ : Summary)
                else ⟨0, 0, 1⟩) (visited ++ [entryId]) [entryId] = .ok s1 v1 f1 →
                ∀ x ∈ visited ++ [entryId], x ∈ v1 := by
            refine ⟨by simp, ?_⟩
            intro s1 v1 f1 hok x hx
            obtain ⟨hs, hv, hf⟩ := AdoptResult.ok.inj hok
            subst hv
            exact hx
          exact (foldl_preserve
            (fun r => r ≠ .outOfFuel ∧ ∀ s1 v1 f1, r = .ok s1 v1 f1 →
              ∀ x ∈ visited ++ [entryId], x ∈ v1)
            P2step _ _ h0).1

/-- C6: for every finite record graph, including cyclic ones,
`adoptEntryTree` terminates and each record id is fetched and processed at
most once: (1) an id already in the visited set returns immediately with a
zero summary and no fetch; (2) fuel exceeding the number of unvisited store
entries is never exhausted (so the recursion, whose only unbounded source
is the link graph, terminates on every finite graph, cycles included);
(3) the fetch log of a completed run is duplicate-free, and every fetched
id was unvisited at entry (hence never re-fetched). -/
theorem adoptEntryTree_cycle_safe (store : Store) (sL tL dL : String)
    (sel : List (String × List String)) (aAll : Bool) :
    (∀ (fuel : Nat) (entryId : String) (visited : List String),
      visited.contains entryId = true →
      adoptGo store sL tL dL sel aAll (fuel + 1) entryId visited = .ok ⟨0, 0, 0⟩ visited []) ∧
    (∀ (fuel : Nat) (entryId : String) (visited : List String),
      unvisitedCount store visited < fuel →
      adoptGo store sL tL dL sel aAll fuel entryId visited ≠ .outOfFuel) ∧
    (∀ (fuel : Nat) (entryId : String) (visited : List String) (s : Summary)
      (v f : List String),
      adoptGo store sL tL dL sel aAll fuel entryId visited = .ok s v f →
      f.Nodup ∧ ∀ x ∈ f, x ∉ visited ∧ x ∈ v) := by
  refine ⟨?_, adoptGo_no_outOfFuel store sL tL dL sel aAll, ?_⟩
  · intro fuel entryId visited hmem
    rw [adoptGo, if_pos (show (entryId.isEmpty || visited.contains entryId) = true by
      simp only [Bool.or_eq_true]
      exact Or.inr hmem)]
  · intro fuel entryId visited s v f h
    obtain ⟨_, _, h3, h4⟩ :=
      adoptGo_ok_invariant store sL tL dL sel aAll fuel entryId visited s v f h
    exact ⟨h3, h4⟩

/-- Witness for C6 on the concrete cyclic two-record graph A → B → A:
a visited id returns the zero summary at once; fuel 3 > 2 unvisited
entries completes; the completed run fetches each of A and B exactly once
(`traversedEntries = 2`). -/
theorem adoptEntryTree_cycle_safe_witness :
    ((["A"].contains "A") = true ∧
      adoptGo ⟨[("A", ⟨"page", [("ref", [("en", .link "B")])]⟩),
                ("B", ⟨"page", [("ref", [("en", .link "A")])]⟩)],
               [("page", [⟨"ref", "Link", some "Entry", none, none, false⟩])]⟩
        "en" "de" "en" [] true 1 "A" ["A"] = .ok ⟨0, 0, 0⟩ ["A"] []) ∧
    (unvisitedCount ⟨[("A", ⟨"page", [("ref", [("en", .link "B")])]⟩),
                ("B", ⟨"page", [("ref", [("en", .link "A")])]⟩)],
               [("page", [⟨"ref", "Link", some "Entry", none, none, false⟩])]⟩ [] < 3 ∧
      adoptGo ⟨[("A", ⟨"page", [("ref", [("en", .link "B")])]⟩),
                ("B", ⟨"page", [("ref", [("en", .link "A")])]⟩)],
               [("page", [⟨"ref", "Link", some "Entry", none, none, false⟩])]⟩
        "en" "de" "en" [] true 3 "A" [] ≠ .outOfFuel) ∧
    (adoptGo ⟨[("A", ⟨"page", [("ref", [("en", .link "B")])]⟩),
                ("B", ⟨"page", [("ref", [("en", .link "A")])]⟩)],
               [("page", [⟨"ref", "Link", some "Entry", none, none, false⟩])]⟩
        "en" "de" "en" [] true 3 "A" [] = .ok ⟨0, 0, 2⟩ ["A", "B"] ["A", "B"] ∧
      (["A", "B"].Nodup ∧ ∀ x ∈ ["A", "B"], x ∉ ([] : List String) ∧ x ∈ ["A", "B"])) :=
  ⟨⟨rfl,
    (adoptEntryTree_cycle_safe ⟨[("A", ⟨"page", [("ref", [("en", .link "B")])]⟩),
        ("B", ⟨"page", [("ref", [("en", .link "A")])]⟩)],
       [("page", [⟨"ref", "Link", some "Entry", none, none, false⟩])]⟩
      "en" "de" "en" [] true).1 0 "A" ["A"] rfl⟩,
   ⟨by decide,
    (adoptEntryTree_cycle_safe ⟨[("A", ⟨"page", [("ref", [("en", .link "B")])]⟩),
        ("B", ⟨"page", [("ref", [("en", .link "A")])]⟩)],
       [("page", [⟨"ref", "Link", some "Entry", none, none, false⟩])]⟩
      "en" "de" "en" [] true).2.1 3 "A" [] (by decide)⟩,
   ⟨rfl,
    (adoptEntryTree_cycle_safe ⟨[("A", ⟨"page", [("ref", [("en", .link "B")])]⟩),
        ("B", ⟨"page", [("ref", [("en", .link "A")])]⟩)],
       [("page", [⟨"ref", "Link", some "Entry", none, none, false⟩])]⟩
      "en" "de" "en" [] true).2.2 3 "A" [] ⟨0, 0, 2⟩ ["A", "B"] ["A", "B"] rfl⟩⟩

end AdoptTree
